import Mathlib

/-!
Verification of the Sql2GraphQL core: the schema compiler
(`src/graphql/compiler.js`) and the resolver synthesis engine
(`resolver.js`).  JavaScript strings are embedded as `List Char`,
JavaScript objects (whose string keys enumerate in insertion order)
as ordered association lists, and thrown exceptions as `Except`.
The definitions come first, translated loop by loop from the source;
the theorems settling the claims follow, one per claim, each preceded
by helper lemmas it needs.
-/

set_option maxHeartbeats 1000000
set_option linter.unusedVariables false
set_option synthInstance.maxHeartbeats 400000


namespace Sql2GraphQL

/-- JavaScript strings, embedded as lists of characters. -/
abbrev Str := List Char

/-- Embed a Lean string literal as a `Str`. -/
def str (x : String) : Str := x.data

/-- Whitespace recognised by `String.prototype.trim`. -/
def isWs (c : Char) : Bool :=
  c = ' ' || c = '\t' || c = '\n' || c = '\r'

/-- `String.prototype.trim`: drop whitespace at both ends. -/
def jsTrim (s : Str) : Str :=
  ((s.dropWhile isWs).reverse.dropWhile isWs).reverse

/-- `p` occurs at the start of `s`. -/
def isPrefixL : Str → Str → Bool
  | [], _ => true
  | _ :: _, [] => false
  | a :: as, b :: bs => a = b && isPrefixL as bs

/-- Worker for `splitOnStr`: scan the string left to right; a positive
    `skip` count records that we are still inside a matched separator. -/
def splitGo (sep : Str) : Nat → Str → List Str
  | 0, [] => [[]]
  | 0, c :: rest =>
    if isPrefixL sep (c :: rest) then
      [] :: splitGo sep (sep.length - 1) rest
    else
      match splitGo sep 0 rest with
      | [] => [[c]]
      | g :: gs => (c :: g) :: gs
  | _ + 1, [] => [[]]
  | k + 1, _ :: rest => splitGo sep k rest

/-- `String.prototype.split(sep)` for a non-empty separator: cut at every
    non-overlapping occurrence, scanning left to right.  (JavaScript's
    behaviour for an empty separator differs, but the program never splits
    on an empty string; we return `[s]` there.) -/
def splitOnStr (sep : Str) (s : Str) : List Str :=
  if sep.length = 0 then [s] else splitGo sep 0 s

/-- Join a list of strings with a separator (`Array.prototype.join`). -/
def joinWith (sep : Str) (l : List Str) : Str :=
  match l with
  | [] => []
  | [x] => x
  | x :: y :: rest => x ++ sep ++ joinWith sep (y :: rest)

/-- JavaScript primitive values, as far as the program manipulates them. -/
inductive JSVal where
  | vNull
  | vUndefined
  | vBool (b : Bool)
  | vNum (n : Int)
  | vStr (s : Str)
deriving DecidableEq, Repr

/-- JavaScript truthiness. -/
def JSVal.truthy : JSVal → Bool
  | .vNull => false
  | .vUndefined => false
  | .vBool b => b
  | .vNum n => n != 0
  | .vStr s => s != []

/-- JavaScript string coercion, as used by `+` on a string operand. -/
def JSVal.toJSString : JSVal → Str
  | .vNull => str "null"
  | .vUndefined => str "undefined"
  | .vBool b => if b then str "true" else str "false"
  | .vNum n => str (toString n)
  | .vStr s => s

/-- Exceptions thrown by the embedded code: `new Error(msg)` from the
    filter parser, and the engine `TypeError` raised by a property access
    on `undefined`. -/
inductive JsError where
  | generic (msg : Str)
  | typeError (msg : Str)
deriving DecidableEq, Repr

/-- `e` is an engine `TypeError` (as opposed to a thrown `Error`). -/
def JsError.isTypeError : JsError → Bool
  | .typeError _ => true
  | .generic _ => false

/-- Equality of `Except` results is decidable. -/
instance {ε α : Type} [DecidableEq ε] [DecidableEq α] : DecidableEq (Except ε α) := fun x y =>
  match x, y with
  | .error a, .error b =>
    if h : a = b then .isTrue (by rw [h]) else .isFalse (fun hc => by cases hc; exact h rfl)
  | .ok a, .ok b =>
    if h : a = b then .isTrue (by rw [h]) else .isFalse (fun hc => by cases hc; exact h rfl)
  | .error _, .ok _ => .isFalse (fun hc => by cases hc)
  | .ok _, .error _ => .isFalse (fun hc => by cases hc)

/-- A JavaScript object with `Str` keys: an association list in key
    insertion order, matching `for ... in` enumeration order for the
    non-integer-like keys the program uses. -/
abbrev OMap (α : Type) : Type := List (Str × α)

namespace OMap

/-- The empty object. -/
def empty {α : Type} : OMap α := []

/-- Property read: the value at `k`, if present. -/
def find? {α : Type} (m : OMap α) (k : Str) : Option α :=
  match m with
  | [] => none
  | (k', v) :: rest => if k' = k then some v else find? rest k

/-- The keys in enumeration order. -/
def keyList {α : Type} (m : OMap α) : List Str := m.map Prod.fst

/-- Property write `m[k] = v`: overwrite in place if `k` is present,
    otherwise append `k` as the newest key. -/
def insert {α : Type} (m : OMap α) (k : Str) (v : α) : OMap α :=
  match m with
  | [] => [(k, v)]
  | (k', v') :: rest => if k' = k then (k', v) :: rest else (k', v') :: insert rest k v

end OMap

/-- The alternatives of the operator regular expression
    `/<=>|>=|<=|=|>|<|~|#/`, in source order. -/
def filterOps : List Str :=
  [str "<=>", str ">=", str "<=", str "=", str ">", str "<", str "~", str "#"]

/-- `regex.exec` for the alternation of literals above: scan the positions
    of the clause left to right; at each position try the alternatives in
    source order; return the first match. -/
def execOp : Str → Option Str
  | [] => none
  | c :: rest =>
    match filterOps.find? (fun op => isPrefixL op (c :: rest)) with
    | some op => some op
    | none => execOp rest

/-- Operator `op` matches the clause `s` starting at position `i`. -/
def opMatchAt (op s : Str) (i : Nat) : Prop := isPrefixL op (s.drop i) = true

instance (op s : Str) (i : Nat) : Decidable (opMatchAt op s i) := by
  unfold opMatchAt; infer_instance

/-- The position of `x` in `l` (the length of `l` when absent): the
    priority index of an operator in `filterOps`. -/
def listIdx : List Str → Str → Nat
  | [], _ => 0
  | a :: as, x => if a = x then 0 else listIdx as x + 1

/-- One clause of `parseFilterExpression`'s `split(';').map` body:
    find the operator (`throw` when absent), split the clause on every
    occurrence of the operator, prepend the operator, trim every token. -/
def parseClause (f1 : Str) : Except JsError (List Str) :=
  match execOp f1 with
  | none => .error (.generic (str "Filter operation not suported in: " ++ f1))
  | some op0 =>
    let op := jsTrim op0
    let condition := splitOnStr op f1
    let condition := op :: condition
    .ok (condition.map jsTrim)

/-- The token list `parseClause` produces for a clause whose operator
    scan succeeds: the trimmed operator followed by the trimmed segments
    of the clause split on every occurrence of the operator. -/
def clauseParts (f1 : Str) : List Str :=
  match execOp f1 with
  | none => []
  | some op0 => (jsTrim op0 :: splitOnStr (jsTrim op0) f1).map jsTrim

/-- `push` onto `m[k]`: a `TypeError` when `m[k]` is `undefined`. -/
def jsPush {α : Type} (m : OMap (List α)) (k : Str) (v : α) :
    Except JsError (OMap (List α)) :=
  match m.find? k with
  | some l => .ok (m.insert k (l ++ [v]))
  | none => .error (.typeError (str "Cannot read properties of undefined (reading push)"))

/-- A parsed filter: table name to ordered `[op, field, value, ...]`
    condition lists. -/
abbrev FilterMap := OMap (List (List Str))

/-- The sequential clause loop of `parseFilterExpression` (the `.map`
    callback runs left to right; a throw escapes the whole call). -/
def filterLoop (tablename : Str) (acc : FilterMap) : List Str → Except JsError FilterMap
  | [] => .ok acc
  | f1 :: cs => do
    let condition ← parseClause f1
    let acc' ← jsPush acc tablename condition
    filterLoop tablename acc' cs

/-- `Resolver.parseFilterExpression(filterExpr, tablename)`: create the
    output key under `tablename.trim()`, then for every `;`-separated
    clause parse it and push the result under the untrimmed `tablename`. -/
def parseFilterExpression (filterExpr tablename : Str) : Except JsError FilterMap :=
  let init : FilterMap := OMap.empty.insert (jsTrim tablename) []
  filterLoop tablename init (splitOnStr (str ";") filterExpr)

/-- A parsed pagination expression: table name to ordered `[key, value]`
    pair lists. -/
abbrev PagMap := OMap (List (List Str))

/-- The sequential pair loop of `parsePaginationExpression`. -/
def pagLoop (tablename : Str) (acc : PagMap) : List Str → Except JsError PagMap
  | [] => .ok acc
  | f1 :: cs => do
    let acc' ← jsPush acc tablename ((splitOnStr (str "=") f1).map jsTrim)
    pagLoop tablename acc' cs

/-- `Resolver.parsePaginationExpression(expression, tablename)`: create the
    output key under `tablename.trim()`, split on `;` then `=`, trim the
    parts, and push each pair under the untrimmed `tablename`. -/
def parsePaginationExpression (expression tablename : Str) : Except JsError PagMap :=
  let init : PagMap := OMap.empty.insert (jsTrim tablename) []
  pagLoop tablename init (splitOnStr (str ";") expression)

/-- The call threw. -/
def isErr {α : Type} : Except JsError α → Bool
  | .error _ => true
  | .ok _ => false

/-- The first `;`-separated clause of an expression. -/
def firstClause (expr : Str) : Str := (splitOnStr (str ";") expr).headD []

/-- The `args` object a resolver receives, as far as `parseArgsCommon`
    inspects it: the `filter` and `pagination` string properties (absent =
    `undefined`), all other properties opaque. -/
structure Args where
  filter : Option Str
  pagination : Option Str
  rest : OMap JSVal
deriving DecidableEq, Repr

/-- The value of `localArgs.filter` (resp. `.pagination`) after
    `parseArgsCommon`: either the untouched original or its parsed form. -/
inductive ArgField where
  | unparsed (o : Option Str)
  | parsedF (m : OMap (List (List Str)))
deriving DecidableEq, Repr

/-- `localArgs` after `parseArgsCommon`. -/
structure ParsedArgs where
  filter : ArgField
  pagination : ArgField
  rest : OMap JSVal
deriving DecidableEq, Repr

/-- `Resolver.parseArgsCommon(tablename, args)`: shallow-clone `args`; when
    `args.filter` is truthy replace it by its parsed form (a thrown parse
    error propagates uncaught), likewise for `args.pagination`. -/
def parseArgsCommon (tablename : Str) (args : Args) : Except JsError ParsedArgs := do
  let pf ← match args.filter with
    | some fs =>
      if fs ≠ [] then do
        let m ← parseFilterExpression fs tablename
        pure (ArgField.parsedF m)
      else
        pure (ArgField.unparsed (some fs))
    | none => pure (ArgField.unparsed none)
  let pp ← match args.pagination with
    | some ps =>
      if ps ≠ [] then do
        let m ← parsePaginationExpression ps tablename
        pure (ArgField.parsedF m)
      else
        pure (ArgField.unparsed (some ps))
    | none => pure (ArgField.unparsed none)
  pure ⟨pf, pp, args.rest⟩

/-- Modelled from the spec: `utils.toCamelCase` lives in `src/utils/utils.js`,
    which is absent from the sources; the spec's examples map table names
    `foo ↦ Foo` and `bar ↦ Bar`, so it is modelled as capitalising the first
    character.  No claim settled here depends on its internals. -/
def toCamelCase : Str → Str
  | [] => []
  | c :: rest => c.toUpper :: rest

/-- A column's `__foreign` metadata. -/
structure ForeignRef where
  tablename : Str
  columnname : Str
deriving DecidableEq, Repr

/-- Per-column driver metadata. -/
structure ColumnMeta where
  name : Str
  nativeType : Str
  foreign : Option ForeignRef
deriving DecidableEq, Repr

/-- A table's `__reverse` entry. -/
structure RevRel where
  ftablename : Str
  fcolumnname : Str
  columnname : Str
deriving DecidableEq, Repr

/-- Per-table driver metadata: columns in the driver's enumeration order
    plus the declared reverse relations. -/
structure TableMeta where
  columns : List (Str × ColumnMeta)
  reverse : List RevRel
deriving Repr

/-- The driver's database schema: tables in the driver's own key order. -/
abbrev DbSchema := List (Str × TableMeta)

/-- The driver's fallible native-to-scalar column-type mapping
    (`mapDbColumnToGraphqlType`): `none` embeds a thrown mapping error. -/
abbrev ColumnTypeMapper := Str → ColumnMeta → Option Str

/-- What was registered at a `(namespace, field)` key. -/
inductive Handler where
  | getPage (tablename : Str)
  | getFirstOf (tablename : Str)
  | putItemH (tablename : Str)
  | foreignField (column : ColumnMeta) (fr : ForeignRef)
  | reverseRelation (r : RevRel)
deriving DecidableEq, Repr

/-- The `this.resolvers` object: namespace to field to handler. -/
abbrev Resolvers := OMap (OMap Handler)

/-- `this.resolvers[ns][field] = h` (creating the namespace when absent) —
    the registration effect shared by `add` and the relation synthesizers. -/
def setResolver (res : Resolvers) (ns field : Str) (h : Handler) : Resolvers :=
  res.insert ns (((res.find? ns).getD OMap.empty).insert field h)

/-- `Resolver.addDefaultFieldsResolvers(tablename)`: register the default
    Query and Mutation resolvers for a table. -/
def addDefaultFieldsResolvers (res : Resolvers) (tablename : Str) : Resolvers :=
  let typeName := toCamelCase tablename
  let res1 := setResolver res (str "Query") (typeName ++ str "GetPage") (.getPage tablename)
  let res2 := setResolver res1 (str "Query") (typeName ++ str "GetFirst") (.getFirstOf tablename)
  setResolver res2 (str "Mutation") (typeName ++ str "Put") (.putItemH tablename)

/-- `Resolver.createForeignFieldsResolvers(tablename)`: for every column
    with `__foreign` metadata, assign a relation resolver directly on
    `resolvers[camelCase(tablename)][column + '_' + foreignTable]`
    (bypassing `add`, hence unwrapped). -/
def createForeignFieldsResolvers (res : Resolvers) (tablename : Str)
    (columns : List (Str × ColumnMeta)) : Resolvers :=
  columns.foldl
    (fun acc p =>
      match p.2.foreign with
      | some fr =>
        setResolver acc (toCamelCase tablename) (p.1 ++ str "_" ++ fr.tablename)
          (.foreignField p.2 fr)
      | none => acc)
    res

/-- A value stored on the execution `context` object. -/
inductive CtxVal where
  | js (v : JSVal)
  | iocOf (db : JSVal)
deriving DecidableEq, Repr

/-- The caller-supplied `context` object. -/
abbrev Ctx := OMap CtxVal

/-- The process-wide `beforeHook` pair. -/
structure Hook where
  validator : Str → Str → JSVal → Args → Ctx → JSVal
  rejected : Str → Str → JSVal → Args → Ctx → JSVal

/-- The constructor defaults: always-true validator, null-returning
    rejected callback. -/
def defaultHook : Hook :=
  ⟨fun _ _ _ _ _ => .vBool true, fun _ _ _ _ _ => .vNull⟩

/-- Everything observable about one invocation of a resolver wrapped by
    `add`: its return value, the final state of the caller's context
    object, the context the validator saw, and which callbacks ran. -/
structure WrapOutcome where
  result : JSVal
  finalCtx : Ctx
  validatorCtx : Ctx
  handlerRan : Bool
  rejectedRan : Bool

/-- One invocation of the function `add(ns, name, cb)` installs: set
    `context.ioc = { resolver, db }` on the caller's context object, call
    the active validator, and depending on its truthiness call `rejected`
    or the wrapped handler. -/
def runWrapped (hook : Hook) (db : JSVal) (ns name : Str)
    (cb : JSVal → Args → Ctx → JSVal)
    (root : JSVal) (args : Args) (context : Ctx) : WrapOutcome :=
  let ctx1 := context.insert (str "ioc") (.iocOf db)
  let v := hook.validator ns name root args ctx1
  if v.truthy then
    ⟨cb root args ctx1, ctx1, ctx1, true, false⟩
  else
    ⟨hook.rejected ns name root args ctx1, ctx1, ctx1, false, true⟩

/-- Property read on a record: `undefined` when the key is absent. -/
def jsGet (m : OMap JSVal) (k : Str) : JSVal :=
  (m.find? k).getD .vUndefined

/-- A call issued to the database driver. -/
inductive DriverCall where
  | firstOf (tablename : Str) (args : ParsedArgs)
deriving DecidableEq, Repr

/-- `Resolver.GetFirstOf(tablename, ...)` up to the driver boundary: parse
    the common args, then issue `dbDriver.firstOf(tablename, args)`. -/
def GetFirstOfCall (tablename : Str) (args : Args) : Except JsError DriverCall :=
  (parseArgsCommon tablename args).map (fun pa => DriverCall.firstOf tablename pa)

/-- What a foreign-relation resolver invocation does. -/
inductive ForeignOutcome where
  | nullNoCall
  | call (c : DriverCall)
deriving DecidableEq, Repr

/-- The filter string the foreign-relation resolver installs before
    delegating: caller clauses first, then `<foreignColumn>#<localValue>`. -/
def foreignFilter (fr : ForeignRef) (callerFilter : Option Str) (localVal : JSVal) : Str :=
  (match callerFilter with
   | some f => if f ≠ [] then f ++ str ";" else []
   | none => []) ++ fr.columnname ++ str "#" ++ localVal.toJSString

/-- The body of the closure `createForeignFieldsResolvers` registers: if
    `item[column.name]` is falsy return null without touching the driver,
    otherwise overwrite `args.filter` and delegate to `GetFirstOf` on the
    foreign table. -/
def foreignFieldResolver (column : ColumnMeta) (fr : ForeignRef)
    (item : OMap JSVal) (args : Args) : Except JsError ForeignOutcome :=
  if (jsGet item column.name).truthy = false then
    .ok .nullNoCall
  else
    (GetFirstOfCall fr.tablename
      { args with filter := some (foreignFilter fr args.filter (jsGet item column.name)) }).map
      .call

/-- The handler registered at `resolvers[ns][f]`, if any. -/
def resolverAt (res : Resolvers) (ns f : Str) : Option Handler :=
  (res.find? ns).bind (fun m => m.find? f)

/-- The field name generated for a foreign-key column, if any. -/
def genForeignName (p : Str × ColumnMeta) : Option Str :=
  p.2.foreign.map (fun fr => p.1 ++ str "_" ++ fr.tablename)

/-- A field's type annotation: a plain name, or `[Name]` when the stored
    `type` is an array. -/
inductive GqlType where
  | named (t : Str)
  | listOf (t : Str)
deriving DecidableEq, Repr

/-- A `FieldDef` of the schema model. -/
structure FieldDef where
  name : Str
  type : GqlType
  params : OMap Str
deriving DecidableEq, Repr

/-- The compiler's `this.schema` model. -/
structure Schema where
  type : OMap (OMap FieldDef)
  input : OMap (OMap Str)
deriving DecidableEq, Repr

/-- The constructor state `{ type: {}, input: {} }`. -/
def emptySchema : Schema := ⟨[], []⟩

/-- `if (!this.schema.type[k]) this.schema.type[k] = {}`. -/
def ensureType (s : Schema) (k : Str) : Schema :=
  if (s.type.find? k).isSome then s
  else { s with type := s.type.insert k OMap.empty }

/-- `this.schema.type[tname][f] = fd`. -/
def setTypeField (s : Schema) (tname f : Str) (fd : FieldDef) : Schema :=
  { s with type := (s.type.insert tname
      (((s.type.find? tname).getD OMap.empty).insert f fd)) }

/-- `this.schema.input[iname][f] = ty`. -/
def setInputField (s : Schema) (iname f ty : Str) : Schema :=
  { s with input := (s.input.insert iname
      (((s.input.find? iname).getD OMap.empty).insert f ty)) }

/-- The standard query parameter object, in source insertion order. -/
def standardParams : OMap Str :=
  [(str "filter", str "String"), (str "pagination", str "String"),
   (str "where", str "Condition"), (str "_debug", str "Boolean"),
   (str "_cache", str "Boolean")]

/-- `m[k1][k2] = v` on a two-level object (creating `m[k1]` when absent,
    as the callers have already ensured). -/
def omap2Set {β : Type} (m : OMap (OMap β)) (k1 k2 : Str) (v : β) : OMap (OMap β) :=
  m.insert k1 (((m.find? k1).getD OMap.empty).insert k2 v)

/-- A loop that conditionally assigns generated entries into `m[k1]`,
    processing `xs` left to right. -/
def omap2Fold {α β : Type} (k1 : Str) (gen : α → Option (Str × β)) :
    List α → OMap (OMap β) → OMap (OMap β)
  | [], m => m
  | x :: xs, m =>
    match gen x with
    | some kv => omap2Fold k1 gen xs (omap2Set m k1 kv.1 kv.2)
    | none => omap2Fold k1 gen xs m

/-- The same loop acting on the inner object only. -/
def innerFold {α β : Type} (gen : α → Option (Str × β)) :
    List α → OMap β → OMap β
  | [], m0 => m0
  | x :: xs, m0 =>
    match gen x with
    | some kv => innerFold gen xs (m0.insert kv.1 kv.2)
    | none => innerFold gen xs m0

/-- The scalar-column loop body of `mapDbTableToGraphqlType`: the driver
    mapping may throw, in which case the column is skipped. -/
def scalarGen (mapColumnType : ColumnTypeMapper) (p : Str × ColumnMeta) :
    Option (Str × FieldDef) :=
  (mapColumnType p.1 p.2).map (fun g => (p.1, ⟨p.1, .named g, OMap.empty⟩))

/-- The foreign-relation loop body of `mapDbTableToGraphqlType`. -/
def foreignGen (p : Str × ColumnMeta) : Option (Str × FieldDef) :=
  p.2.foreign.map (fun fr =>
    (p.1 ++ str "_" ++ fr.tablename,
     ⟨p.1 ++ str "_" ++ fr.tablename, .named (toCamelCase fr.tablename), OMap.empty⟩))

/-- The reverse-relation loop body of `mapDbTableToGraphqlType`. -/
def reverseGen (r : RevRel) : Option (Str × FieldDef) :=
  some (r.ftablename,
    ⟨r.ftablename, .named (toCamelCase r.ftablename ++ str "Page"), standardParams⟩)

/-- The `<Type>Page` companion object literal. -/
def pageFields (field : Str) : OMap FieldDef :=
  [(str "total", ⟨str "total", .named (str "Int"), OMap.empty⟩),
   (str "items", ⟨str "items", .listOf field, OMap.empty⟩)]

/-- `Compiler.mapDbTableToGraphqlType(tablename)`: ensure the type object,
    add one scalar field per column (a per-column mapping failure is
    swallowed and the column omitted), then the foreign-relation fields,
    then the reverse-relation fields, then register `<Type>Page`. -/
def mapDbTableToGraphqlType (mapColumnType : ColumnTypeMapper) (tmeta : TableMeta)
    (s : Schema) (tablename : Str) : Schema :=
  let field := toCamelCase tablename
  let s1 := ensureType s field
  let ty1 := omap2Fold field (scalarGen mapColumnType) tmeta.columns s1.type
  let ty2 := omap2Fold field foreignGen tmeta.columns ty1
  let ty3 := omap2Fold field reverseGen tmeta.reverse ty2
  { s1 with type := ty3.insert (field ++ str "Page") (pageFields field) }

/-- `Compiler.mapDbTableToGraphqlQuery(tablename)`. -/
def mapDbTableToGraphqlQuery (s : Schema) (tablename : Str) : Schema :=
  let field := toCamelCase tablename
  let s1 := ensureType s (str "Query")
  setTypeField s1 (str "Query") (field ++ str "GetPage")
    ⟨field ++ str "GetPage", .named (field ++ str "Page"), standardParams⟩

/-- `Compiler.mapDbTableToGraphqlFirstOf(tablename)`. -/
def mapDbTableToGraphqlFirstOf (s : Schema) (tablename : Str) : Schema :=
  let field := toCamelCase tablename
  let s1 := ensureType s (str "Query")
  setTypeField s1 (str "Query") (field ++ str "GetFirst")
    ⟨field ++ str "GetFirst", .named field, standardParams⟩

/-- `Compiler.getInputName(tablename)`. -/
def getInputName (tablename : Str) : Str := toCamelCase tablename ++ str "Input"

/-- The per-column loop body of `mapDbTableToGraphqlInput` (an
    independent mapping attempt; a failure skips the column). -/
def inputGen (mapColumnType : ColumnTypeMapper) (p : Str × ColumnMeta) :
    Option (Str × Str) :=
  (mapColumnType p.1 p.2).map (fun g => (p.1, g))

/-- `Compiler.mapDbTableToGraphqlInput(tablename)`: one scalar field per
    column, with its own independent mapping attempt and skip. -/
def mapDbTableToGraphqlInput (mapColumnType : ColumnTypeMapper) (tmeta : TableMeta)
    (s : Schema) (tablename : Str) : Schema :=
  let name := getInputName tablename
  let inp1 :=
    if (s.input.find? name).isSome then s.input
    else s.input.insert name OMap.empty
  { s with input := omap2Fold name (inputGen mapColumnType) tmeta.columns inp1 }

/-- The fields `mapDbTableToGraphqlType` generates for a table, in
    insertion order: mapped scalar columns, then foreign-relation fields,
    then reverse-relation fields. -/
def genTypeFields (mapColumnType : ColumnTypeMapper) (tm : TableMeta) : OMap FieldDef :=
  tm.columns.filterMap (scalarGen mapColumnType) ++
  tm.columns.filterMap foreignGen ++
  tm.reverse.filterMap reverseGen

/-- The fields `mapDbTableToGraphqlInput` generates for a table, in
    insertion order. -/
def genInputFields (mapColumnType : ColumnTypeMapper) (tm : TableMeta) : OMap Str :=
  tm.columns.filterMap (inputGen mapColumnType)

/-- `Compiler.mapDbTableToGraphqlMutation(tablename)`: the Mutation field
    `<type>PutItem(_debug: Boolean, input: <Type>Input!): Type`. -/
def mapDbTableToGraphqlMutation (s : Schema) (tablename : Str) : Schema :=
  let field := toCamelCase tablename
  let s1 := ensureType s (str "Mutation")
  setTypeField s1 (str "Mutation") (field ++ str "PutItem")
    ⟨field ++ str "PutItem", .named field,
     [(str "_debug", str "Boolean"), (str "input", getInputName tablename ++ str "!")]⟩

/-- One table's fully awaited pass — the five per-table maps run to
    completion in source order, as `buildSchemaByTable` and
    `async_buildSchema` sequence them. -/
def buildTable (mapColumnType : ColumnTypeMapper) (s : Schema) (p : Str × TableMeta) :
    Schema :=
  let s1 := mapDbTableToGraphqlType mapColumnType p.2 s p.1
  let s2 := mapDbTableToGraphqlQuery s1 p.1
  let s3 := mapDbTableToGraphqlFirstOf s2 p.1
  let s4 := mapDbTableToGraphqlMutation s3 p.1
  mapDbTableToGraphqlInput mapColumnType p.2 s4 p.1

/-- `Compiler.async_buildSchema()`: all passes over all tables in the
    driver's key order, every call awaited before the next starts.  (The
    non-async `Compiler.buildSchema()` invokes the same five async methods
    *without* awaiting them; its interleaved execution is modelled below
    by `buildSchemaSyncPhase` together with `allContOps` and
    `Interleaving`.) -/
def async_buildSchema (mapColumnType : ColumnTypeMapper) : DbSchema → Schema → Schema
  | [], s => s
  | p :: db, s => async_buildSchema mapColumnType db (buildTable mapColumnType s p)

/-- The top-level type keys each table contributes, in insertion order. -/
def typeKeysOf : DbSchema → List Str
  | [] => []
  | p :: db => toCamelCase p.1 :: (toCamelCase p.1 ++ str "Page") :: typeKeysOf db

/-- The input keys each table contributes, in insertion order. -/
def inputKeysOf : DbSchema → List Str
  | [] => []
  | p :: db => getInputName p.1 :: inputKeysOf db

/-- A primitive schema mutation performed by one statement of the five
    async per-table methods. -/
inductive BuildOp where
  | ensureTypeKey (k : Str)
  | setTypeF (k f : Str) (fd : FieldDef)
  | setPageKey (k : Str) (fields : OMap FieldDef)
  | ensureInputKey (k : Str)
  | setInputF (k f ty : Str)
deriving DecidableEq, Repr

/-- Execute one primitive mutation. -/
def applyOp (s : Schema) : BuildOp → Schema
  | .ensureTypeKey k => ensureType s k
  | .setTypeF k f fd => { s with type := omap2Set s.type k f fd }
  | .setPageKey k fields => { s with type := s.type.insert k fields }
  | .ensureInputKey k =>
    if (s.input.find? k).isSome then s
    else { s with input := s.input.insert k OMap.empty }
  | .setInputF k f ty => { s with input := omap2Set s.input k f ty }

/-- Execute a schedule of primitive mutations left to right. -/
def applyOps : Schema → List BuildOp → Schema
  | s, [] => s
  | s, op :: ops => applyOps (applyOp s op) ops

/-- The top-level type key an op writes to, if any. -/
def opTypeKey : BuildOp → Option Str
  | .ensureTypeKey k => some k
  | .setTypeF k _ _ => some k
  | .setPageKey k _ => some k
  | .ensureInputKey _ => none
  | .setInputF _ _ _ => none

/-- The op writes to type key `k`. -/
def touchesType (k : Str) (op : BuildOp) : Bool :=
  opTypeKey op = some k

/-- The effect of one op on the value stored at type key `k`. -/
def typeProj (k : Str) (v : Option (OMap FieldDef)) : BuildOp → Option (OMap FieldDef)
  | .ensureTypeKey k' => if k' = k then some (v.getD OMap.empty) else v
  | .setTypeF k' f fd => if k' = k then some ((v.getD OMap.empty).insert f fd) else v
  | .setPageKey k' fields => if k' = k then some fields else v
  | .ensureInputKey _ => v
  | .setInputF _ _ _ => v

/-- Fold `typeProj` over a schedule. -/
def typeProjFold (k : Str) : Option (OMap FieldDef) → List BuildOp → Option (OMap FieldDef)
  | v, [] => v
  | v, op :: ops => typeProjFold k (typeProj k v op) ops

/-- The assignments `schema.type[k][f] = fd` for a list of fields. -/
def setTypeOpsOf (k : Str) (fields : OMap FieldDef) : List BuildOp :=
  fields.map (fun kv => .setTypeF k kv.1 kv.2)

/-- The continuation of `mapDbTableToGraphqlType` after its first await
    (everything from the column fetch on): the scalar-field loop, the
    foreign-relation loop, the reverse-relation loop, then the `<Type>Page`
    assignment.  The bare type-key creation before the first await belongs
    to `buildSchemaSyncPhase` instead. -/
def typeContOps (m : ColumnTypeMapper) (t : Str) (tm : TableMeta) : List BuildOp :=
  setTypeOpsOf (toCamelCase t) (tm.columns.filterMap (scalarGen m)) ++
  setTypeOpsOf (toCamelCase t) (tm.columns.filterMap foreignGen) ++
  setTypeOpsOf (toCamelCase t) (tm.reverse.filterMap reverseGen) ++
  [.setPageKey (toCamelCase t ++ str "Page") (pageFields (toCamelCase t))]

/-- The continuation of `mapDbTableToGraphqlQuery` (its first statement
    awaits, so the whole body runs as a continuation). -/
def queryContOps (t : Str) : List BuildOp :=
  [.ensureTypeKey (str "Query"),
   .setTypeF (str "Query") (toCamelCase t ++ str "GetPage")
     ⟨toCamelCase t ++ str "GetPage", .named (toCamelCase t ++ str "Page"),
      standardParams⟩]

/-- The continuation of `mapDbTableToGraphqlFirstOf`. -/
def firstOfContOps (t : Str) : List BuildOp :=
  [.ensureTypeKey (str "Query"),
   .setTypeF (str "Query") (toCamelCase t ++ str "GetFirst")
     ⟨toCamelCase t ++ str "GetFirst", .named (toCamelCase t), standardParams⟩]

/-- The continuation of `mapDbTableToGraphqlMutation`. -/
def mutationContOps (t : Str) : List BuildOp :=
  [.ensureTypeKey (str "Mutation"),
   .setTypeF (str "Mutation") (toCamelCase t ++ str "PutItem")
     ⟨toCamelCase t ++ str "PutItem", .named (toCamelCase t),
      [(str "_debug", str "Boolean"), (str "input", getInputName t ++ str "!")]⟩]

/-- The continuation of `mapDbTableToGraphqlInput`. -/
def inputContOps (m : ColumnTypeMapper) (t : Str) (tm : TableMeta) : List BuildOp :=
  .ensureInputKey (getInputName t) ::
    (tm.columns.filterMap (inputGen m)).map
      (fun kv => .setInputF (getInputName t) kv.1 kv.2)

/-- The five pending continuations one loop iteration of the non-async
    `buildSchema` leaves behind, in call order. -/
def tableContOps (m : ColumnTypeMapper) (p : Str × TableMeta) : List (List BuildOp) :=
  [typeContOps m p.1 p.2, queryContOps p.1, firstOfContOps p.1,
   mutationContOps p.1, inputContOps m p.1 p.2]

/-- All pending continuations of a full non-async `buildSchema` run. -/
def allContOps (m : ColumnTypeMapper) : DbSchema → List (List BuildOp)
  | [] => []
  | p :: db => tableContOps m p ++ allContOps m db

/-- The synchronous part of the non-async `Compiler.buildSchema()`: the
    loop calls the five async methods per table without awaiting them, and
    only `mapDbTableToGraphqlType` touches the schema before its first
    await — creating the bare type object `camelCase(t)`.  Everything else
    runs later, as the pending continuations above. -/
def buildSchemaSyncPhase : DbSchema → Schema → Schema
  | [], s => s
  | p :: db, s => buildSchemaSyncPhase db (ensureType s (toCamelCase p.1))

/-- `SelectHead ls op rest ls'`: the scheduler picks the pending
    continuation whose next op is `op`; `ls'` is `ls` with that op
    consumed. -/
inductive SelectHead : List (List BuildOp) → BuildOp → List BuildOp →
    List (List BuildOp) → Prop where
  | here {ls : List (List BuildOp)} {op : BuildOp} {rest : List BuildOp} :
      SelectHead ((op :: rest) :: ls) op rest (rest :: ls)
  | there {l : List BuildOp} {ls : List (List BuildOp)} {op : BuildOp}
      {rest : List BuildOp} {ls' : List (List BuildOp)} :
      SelectHead ls op rest ls' → SelectHead (l :: ls) op rest (l :: ls')

/-- `Interleaving ls ops`: `ops` is one complete schedule of the pending
    continuations `ls` — each continuation's ops appear in program order,
    but how the calls interleave is left to the engine's microtask queue
    and the external driver's promise timing, so every schedule is
    admitted. -/
inductive Interleaving : List (List BuildOp) → List BuildOp → Prop where
  | done {ls : List (List BuildOp)} : (∀ l ∈ ls, l = []) → Interleaving ls []
  | step {ls : List (List BuildOp)} {op : BuildOp} {rest : List BuildOp}
      {ls' : List (List BuildOp)} {ops : List BuildOp} :
      SelectHead ls op rest ls' → Interleaving ls' ops → Interleaving ls (op :: ops)

/-- `Compiler.buildParamsFromObject(obj)`. -/
def buildParamsFromObject (params : OMap Str) : Str :=
  match params with
  | [] => []
  | _ => str "(" ++ joinWith (str ", ") (params.map (fun p => p.1 ++ str ": " ++ p.2)) ++ str ")"

/-- Render a stored field type (`'[' + f.type[0] + ']'` for arrays). -/
def renderGqlType : GqlType → Str
  | .named t => t
  | .listOf t => str "[" ++ t ++ str "]"

/-- One `type Name \x7b ... \x7d` block of the SDL. -/
def renderTypeBlock (p : Str × OMap FieldDef) : Str :=
  str "type " ++ p.1 ++ str " \x7b\n" ++
    joinWith (str "\n") (p.2.map (fun q =>
      str "  " ++ q.2.name ++ buildParamsFromObject q.2.params ++ str ": " ++
        renderGqlType q.2.type)) ++
  str "\n\x7d"

/-- One `input Name \x7b ... \x7d` block of the SDL. -/
def renderInputBlock (p : Str × OMap Str) : Str :=
  str "input " ++ p.1 ++ str " \x7b\n" ++
    joinWith (str "\n") (p.2.map (fun q => str "  " ++ q.1 ++ str ": " ++ q.2)) ++
  str "\n\x7d"

/-- `Compiler.getSDL()` on a freshly built model: all type blocks in key
    order, then all input blocks, joined with blank lines, a newline
    appended, the whole trimmed. -/
def getSDL (s : Schema) : Str :=
  jsTrim (joinWith (str "\n\n")
    (s.type.map renderTypeBlock ++ s.input.map renderInputBlock) ++ str "\n")

/-- A concrete driver column-type mapping for the spec's end-to-end
    example (`serial`/`integer` to `Int`, `boolean` to `Boolean`, anything
    else fails). -/
def demoMapper : ColumnTypeMapper := fun _ meta =>
  if meta.nativeType = str "serial" || meta.nativeType = str "integer" then
    some (str "Int")
  else if meta.nativeType = str "boolean" then some (str "Boolean")
  else none

/-- The spec's end-to-end example: `foo(id serial, name boolean)` and
    `bar(id serial, foo_id integer references foo.id)`, with the matching
    `__reverse` entry on `foo`. -/
def fooBarDb : DbSchema :=
  [(str "foo",
    ⟨[(str "id", ⟨str "id", str "serial", none⟩),
      (str "name", ⟨str "name", str "boolean", none⟩)],
     [⟨str "bar", str "foo_id", str "id"⟩]⟩),
   (str "bar",
    ⟨[(str "id", ⟨str "id", str "serial", none⟩),
      (str "foo_id", ⟨str "foo_id", str "integer", some ⟨str "foo", str "id"⟩⟩)],
     []⟩)]

/-! ## Theorems -/

/-- A single-table fixture whose middle column has a native type the
    driver mapping fails on. -/
def mixedTable : TableMeta :=
  ⟨[(str "id", ⟨str "id", str "serial", none⟩),
    (str "weird", ⟨str "weird", str "geometry", none⟩),
    (str "name", ⟨str "name", str "boolean", none⟩)],
   []⟩

theorem splitGo_ne_nil (sep : Str) (k : Nat) (s : Str) : splitGo sep k s ≠ [] := by
  induction s generalizing k with
  | nil => cases k <;> simp [splitGo]
  | cons c rest ih =>
    cases k with
    | zero =>
      rw [splitGo]
      split
      · simp
      · split <;> simp
    | succ k => exact ih k

/-- `splitOnStr` never returns an empty list of groups. -/
theorem splitOnStr_ne_nil (sep s : Str) : splitOnStr sep s ≠ [] := by
  rw [splitOnStr]
  split
  · simp
  · exact splitGo_ne_nil sep 0 s

namespace OMap

theorem find?_insert_self {α : Type} (m : OMap α) (k : Str) (v : α) :
    (m.insert k v).find? k = some v := by
  induction m with
  | nil => simp [insert, find?]
  | cons p rest ih =>
    by_cases h : p.1 = k
    · simp [insert, find?, h]
    · simp [insert, find?, h, ih]

theorem find?_insert_ne {α : Type} (m : OMap α) (k k' : Str) (v : α) (h : k ≠ k') :
    (m.insert k v).find? k' = m.find? k' := by
  induction m with
  | nil => simp [insert, find?, h]
  | cons p rest ih =>
    by_cases hp : p.1 = k
    · simp [insert, find?, hp, h]
    · by_cases hp' : p.1 = k'
      · simp [insert, find?, hp, hp', Ne.symm h]
      · simp [insert, find?, hp, hp', ih]

theorem keyList_cons {α : Type} (p : Str × α) (rest : OMap α) :
    keyList (p :: rest) = p.1 :: keyList rest := rfl

theorem keyList_insert_mem {α : Type} (m : OMap α) (k : Str) (v : α)
    (h : k ∈ m.keyList) : (m.insert k v).keyList = m.keyList := by
  induction m with
  | nil => exact absurd h (List.not_mem_nil k)
  | cons p rest ih =>
    by_cases hp : p.1 = k
    · simp [insert, keyList, hp]
    · rw [keyList_cons, List.mem_cons] at h
      rcases h with h | h
      · exact absurd h.symm hp
      · simp only [insert, hp, if_false, keyList_cons]
        rw [ih h]

theorem keyList_insert_fresh {α : Type} (m : OMap α) (k : Str) (v : α)
    (h : ¬ k ∈ m.keyList) : (m.insert k v).keyList = m.keyList ++ [k] := by
  induction m with
  | nil => simp [insert, keyList]
  | cons p rest ih =>
    rw [keyList_cons, List.mem_cons] at h
    push_neg at h
    have hp : p.1 ≠ k := fun he => h.1 he.symm
    simp only [insert, hp, if_false, keyList_cons]
    rw [ih h.2]
    rfl

theorem find?_mem_keyList {α : Type} (m : OMap α) (k : Str)
    (h : (m.find? k).isSome) : k ∈ m.keyList := by
  induction m with
  | nil => simp [find?] at h
  | cons p rest ih =>
    by_cases hp : p.1 = k
    · rw [keyList_cons]
      exact List.mem_cons.mpr (Or.inl hp.symm)
    · simp only [find?, hp, if_false] at h
      rw [keyList_cons]
      exact List.mem_cons.mpr (Or.inr (ih h))

theorem find?_not_mem {α : Type} (m : OMap α) (k : Str)
    (h : ¬ k ∈ m.keyList) : m.find? k = none := by
  induction m with
  | nil => rfl
  | cons p rest ih =>
    rw [keyList_cons, List.mem_cons] at h
    push_neg at h
    have hp : p.1 ≠ k := fun he => h.1 he.symm
    simp only [find?, hp, if_false]
    exact ih h.2

theorem mem_keyList_isSome {α : Type} (m : OMap α) (k : Str)
    (h : k ∈ m.keyList) : (m.find? k).isSome := by
  induction m with
  | nil => exact absurd h (List.not_mem_nil k)
  | cons p rest ih =>
    by_cases hp : p.1 = k
    · simp [find?, hp]
    · rw [keyList_cons, List.mem_cons] at h
      rcases h with he | hm
      · exact absurd he.symm hp
      · simp only [find?, hp, if_false]
        exact ih hm

theorem not_mem_of_find?_none {α : Type} (m : OMap α) (k : Str)
    (h : m.find? k = none) : ¬ k ∈ m.keyList := by
  intro hmem
  have := mem_keyList_isSome m k hmem
  rw [h] at this
  simp at this

theorem insert_fresh_append {α : Type} (m : OMap α) (k : Str) (v : α)
    (h : ¬ k ∈ m.keyList) : m.insert k v = m ++ [(k, v)] := by
  induction m with
  | nil => rfl
  | cons p rest ih =>
    rw [keyList_cons, List.mem_cons] at h
    push_neg at h
    have hp : p.1 ≠ k := fun he => h.1 he.symm
    simp only [insert, hp, if_false, List.cons_append]
    rw [ih h.2]

theorem find?_append_left {α : Type} (l1 l2 : OMap α) (k : Str) (v : α)
    (h : l1.find? k = some v) : (l1 ++ l2).find? k = some v := by
  induction l1 with
  | nil => simp [find?] at h
  | cons p rest ih =>
    by_cases hp : p.1 = k
    · simp only [find?, hp, if_pos] at h
      simp only [List.cons_append, find?, hp, if_pos]
      exact h
    · simp only [find?, hp, if_false] at h
      simp only [List.cons_append, find?, hp, if_false]
      exact ih h

theorem find?_append_right {α : Type} (l1 l2 : OMap α) (k : Str)
    (h : l1.find? k = none) : (l1 ++ l2).find? k = l2.find? k := by
  induction l1 with
  | nil => rfl
  | cons p rest ih =>
    by_cases hp : p.1 = k
    · simp [find?, hp] at h
    · simp only [find?, hp, if_false] at h
      simp only [List.cons_append, find?, hp, if_false]
      exact ih h

theorem keyList_append {α : Type} (l1 l2 : OMap α) :
    keyList (l1 ++ l2) = keyList l1 ++ keyList l2 :=
  List.map_append Prod.fst l1 l2

end OMap

/-- A string never equals itself extended by a non-empty suffix. -/
theorem append_ne_self (a b : Str) (h : b ≠ []) : a ++ b ≠ a := by
  intro he
  have hlen := congrArg List.length he
  rw [List.length_append] at hlen
  have hb : b.length = 0 := by omega
  exact h (List.length_eq_zero.mp hb)

theorem filterOps_ne_nil_elem : ∀ op ∈ filterOps, op ≠ [] := by decide

theorem filterOps_trim_id : ∀ op ∈ filterOps, jsTrim op = op := by decide

/-- `List.find?` returns the earliest satisfying element. -/
theorem find?_first_index {l : List Str} {p : Str → Bool} {op : Str}
    (h : l.find? p = some op) :
    ∀ op' ∈ l, p op' = true → listIdx l op ≤ listIdx l op' := by
  induction l with
  | nil => simp at h
  | cons a as ih =>
    by_cases ha : p a = true
    · rw [List.find?_cons_of_pos _ ha] at h
      cases h
      intro op' _ _
      simp [listIdx]
    · rw [List.find?_cons_of_neg _ (by simp [ha])] at h
      intro op' hmem hp
      have hne : a ≠ op := by
        intro he
        rw [he] at ha
        exact ha (List.find?_some h)
      have hne' : a ≠ op' := by
        intro he
        rw [he] at ha
        exact ha hp
      rcases List.mem_cons.mp hmem with he | hmem'
      · rw [he] at hp; exact absurd hp ha
      · simp only [listIdx, hne, hne', if_false]
        exact Nat.succ_le_succ (ih h op' hmem' hp)

/-- An operator returned by the scan is one of the eight alternatives. -/
theorem execOp_mem {f1 op : Str} (h : execOp f1 = some op) : op ∈ filterOps := by
  induction f1 with
  | nil => simp [execOp] at h
  | cons c rest ih =>
    rw [execOp] at h
    cases hf : filterOps.find? (fun op => isPrefixL op (c :: rest)) with
    | some op' =>
      rw [hf] at h
      cases h
      exact List.mem_of_find?_eq_some hf
    | none =>
      rw [hf] at h
      exact ih h

/-- The scan returns the leftmost-starting match, and among the
    alternatives matching at that position, the first in source order. -/
theorem execOp_spec (f1 : Str) (h : ∃ op ∈ filterOps, ∃ i, opMatchAt op f1 i) :
    ∃ op i, execOp f1 = some op ∧ op ∈ filterOps ∧ opMatchAt op f1 i ∧
      (∀ j, j < i → ∀ op' ∈ filterOps, ¬ opMatchAt op' f1 j) ∧
      (∀ op' ∈ filterOps, opMatchAt op' f1 i →
        listIdx filterOps op ≤ listIdx filterOps op') := by
  induction f1 with
  | nil =>
    exfalso
    obtain ⟨op, hop, i, hmatch⟩ := h
    have hne := filterOps_ne_nil_elem op hop
    unfold opMatchAt at hmatch
    rw [List.drop_nil] at hmatch
    cases op with
    | nil => exact hne rfl
    | cons a as => simp [isPrefixL] at hmatch
  | cons c rest ih =>
    cases hf : filterOps.find? (fun op => isPrefixL op (c :: rest)) with
    | some op =>
      refine ⟨op, 0, ?_, List.mem_of_find?_eq_some hf, ?_, ?_, ?_⟩
      · rw [execOp, hf]
      · unfold opMatchAt
        rw [List.drop_zero]
        have hp := List.find?_some hf
        simpa using hp
      · intro j hj
        omega
      · intro op' hop' hmatch'
        unfold opMatchAt at hmatch'
        rw [List.drop_zero] at hmatch'
        exact find?_first_index hf op' hop' hmatch'
    | none =>
      obtain ⟨op, hop, i, hmatch⟩ := h
      have hnone := List.find?_eq_none.mp hf
      cases i with
      | zero =>
        exfalso
        unfold opMatchAt at hmatch
        rw [List.drop_zero] at hmatch
        exact absurd hmatch (by simpa using hnone op hop)
      | succ i0 =>
        have hrest : opMatchAt op rest i0 := by
          unfold opMatchAt at hmatch ⊢
          rwa [List.drop_succ_cons] at hmatch
        obtain ⟨o, j, hexec, hmem, hmat, hleft, hpri⟩ := ih ⟨op, hop, i0, hrest⟩
        refine ⟨o, j + 1, ?_, hmem, ?_, ?_, ?_⟩
        · rw [execOp, hf]
          exact hexec
        · unfold opMatchAt at hmat ⊢
          rwa [List.drop_succ_cons]
        · intro jj hjj op' hop' hm
          cases jj with
          | zero =>
            unfold opMatchAt at hm
            rw [List.drop_zero] at hm
            exact absurd hm (by simpa using hnone op' hop')
          | succ jj0 =>
            unfold opMatchAt at hm
            rw [List.drop_succ_cons] at hm
            exact hleft jj0 (by omega) op' hop' hm
        · intro op' hop' hm
          unfold opMatchAt at hm
          rw [List.drop_succ_cons] at hm
          exact hpri op' hop' hm

theorem parseClause_eq_ok {f1 : Str} (h : (execOp f1).isSome) :
    parseClause f1 = .ok (clauseParts f1) := by
  unfold parseClause clauseParts
  cases hexec : execOp f1 with
  | none => rw [hexec] at h; simp at h
  | some op0 => rfl

theorem parseClause_eq_error {f1 : Str} (h : execOp f1 = none) :
    parseClause f1 = .error (.generic (str "Filter operation not suported in: " ++ f1)) := by
  unfold parseClause
  rw [h]

theorem parseClause_of_execOp {f1 op : Str} (h : execOp f1 = some op) :
    parseClause f1 = .ok (op :: (splitOnStr op f1).map jsTrim) := by
  have hmem : op ∈ filterOps := execOp_mem h
  have htrim := filterOps_trim_id op hmem
  unfold parseClause
  rw [h]
  simp only [htrim, List.map_cons]

theorem jsPush_single_self (t : Str) (acc0 : List (List Str)) (v : List Str) :
    jsPush [(t, acc0)] t v = .ok [(t, acc0 ++ [v])] := by
  simp [jsPush, OMap.find?, OMap.insert]

theorem jsPush_single_other {k t : Str} (h : k ≠ t) (acc0 : List (List Str)) (v : List Str) :
    jsPush [(k, acc0)] t v =
      .error (.typeError (str "Cannot read properties of undefined (reading push)")) := by
  simp [jsPush, OMap.find?, h]

theorem filterLoop_ok (t : Str) (acc0 : List (List Str)) (cs : List Str)
    (h : ∀ f1 ∈ cs, (execOp f1).isSome) :
    filterLoop t [(t, acc0)] cs = .ok [(t, acc0 ++ cs.map clauseParts)] := by
  induction cs generalizing acc0 with
  | nil => simp [filterLoop]
  | cons f1 cs ih =>
    have h1 : (execOp f1).isSome := h f1 (List.mem_cons_self f1 cs)
    rw [filterLoop, parseClause_eq_ok h1]
    show (jsPush [(t, acc0)] t (clauseParts f1)).bind (fun acc' => filterLoop t acc' cs) = _
    rw [jsPush_single_self]
    show filterLoop t [(t, acc0 ++ [clauseParts f1])] cs = _
    rw [ih _ (fun f hm => h f (List.mem_cons_of_mem f1 hm))]
    simp

theorem filterLoop_isErr_iff (t : Str) (acc0 : List (List Str)) (cs : List Str) :
    isErr (filterLoop t [(t, acc0)] cs) = true ↔ ∃ f1 ∈ cs, execOp f1 = none := by
  induction cs generalizing acc0 with
  | nil => simp [filterLoop, isErr]
  | cons f1 cs ih =>
    cases hexec : execOp f1 with
    | none =>
      rw [filterLoop, parseClause_eq_error hexec]
      show isErr (Except.error _) = true ↔ _
      simp only [isErr, true_iff]
      exact ⟨f1, List.mem_cons_self f1 cs, hexec⟩
    | some op =>
      rw [filterLoop, parseClause_eq_ok (by rw [hexec]; rfl)]
      show isErr ((jsPush [(t, acc0)] t (clauseParts f1)).bind
        (fun acc' => filterLoop t acc' cs)) = true ↔ _
      rw [jsPush_single_self]
      show isErr (filterLoop t [(t, acc0 ++ [clauseParts f1])] cs) = true ↔ _
      rw [ih]
      constructor
      · rintro ⟨f, hm, hf⟩
        exact ⟨f, List.mem_cons_of_mem f1 hm, hf⟩
      · rintro ⟨f, hm, hf⟩
        rcases List.mem_cons.mp hm with he | hm'
        · rw [he] at hf
          rw [hf] at hexec
          cases hexec
        · exact ⟨f, hm', hf⟩

theorem filterLoop_untrimmed {k t : Str} (h : k ≠ t) (acc0 : List (List Str))
    (f1 : Str) (cs : List Str) :
    filterLoop t [(k, acc0)] (f1 :: cs) =
      match execOp f1 with
      | none => .error (.generic (str "Filter operation not suported in: " ++ f1))
      | some _ =>
        .error (.typeError (str "Cannot read properties of undefined (reading push)")) := by
  cases hexec : execOp f1 with
  | none =>
    rw [filterLoop, parseClause_eq_error hexec]
    rfl
  | some op =>
    rw [filterLoop, parseClause_eq_ok (by rw [hexec]; rfl)]
    show (jsPush [(k, acc0)] t (clauseParts f1)).bind (fun acc' => filterLoop t acc' cs) = _
    rw [jsPush_single_other h]
    rfl

theorem pagLoop_ok (t : Str) (acc0 : List (List Str)) (cs : List Str) :
    pagLoop t [(t, acc0)] cs =
      .ok [(t, acc0 ++ cs.map (fun f1 => (splitOnStr (str "=") f1).map jsTrim))] := by
  induction cs generalizing acc0 with
  | nil => simp [pagLoop]
  | cons f1 cs ih =>
    rw [pagLoop]
    show (jsPush [(t, acc0)] t ((splitOnStr (str "=") f1).map jsTrim)).bind
      (fun acc' => pagLoop t acc' cs) = _
    rw [jsPush_single_self]
    show pagLoop t [(t, acc0 ++ [(splitOnStr (str "=") f1).map jsTrim])] cs = _
    rw [ih]
    simp

theorem pagLoop_untrimmed {k t : Str} (h : k ≠ t) (acc0 : List (List Str))
    (f1 : Str) (cs : List Str) :
    pagLoop t [(k, acc0)] (f1 :: cs) =
      .error (.typeError (str "Cannot read properties of undefined (reading push)")) := by
  rw [pagLoop]
  show (jsPush [(k, acc0)] t ((splitOnStr (str "=") f1).map jsTrim)).bind
    (fun acc' => pagLoop t acc' cs) = _
  rw [jsPush_single_other h]
  rfl

theorem execOp_some_match {f1 op : Str} (h : execOp f1 = some op) :
    ∃ i, opMatchAt op f1 i := by
  induction f1 with
  | nil => simp [execOp] at h
  | cons c rest ih =>
    rw [execOp] at h
    cases hf : filterOps.find? (fun op => isPrefixL op (c :: rest)) with
    | some op' =>
      rw [hf] at h
      cases h
      refine ⟨0, ?_⟩
      unfold opMatchAt
      rw [List.drop_zero]
      have hp := List.find?_some hf
      simpa using hp
    | none =>
      rw [hf] at h
      obtain ⟨i, hi⟩ := ih h
      refine ⟨i + 1, ?_⟩
      unfold opMatchAt at hi ⊢
      rwa [List.drop_succ_cons]

/-- The scan fails exactly when no alternative matches anywhere. -/
theorem execOp_none_iff (f1 : Str) :
    execOp f1 = none ↔ ∀ op ∈ filterOps, ∀ i, ¬ opMatchAt op f1 i := by
  constructor
  · intro h op hop i hmat
    obtain ⟨o, j, hexec, _⟩ := execOp_spec f1 ⟨op, hop, i, hmat⟩
    rw [h] at hexec
    cases hexec
  · intro h
    cases hexec : execOp f1 with
    | none => rfl
    | some op =>
      obtain ⟨i, hi⟩ := execOp_some_match hexec
      exact absurd hi (h op (execOp_mem hexec) i)

theorem parseFilterExpression_init (t : Str) (ht : jsTrim t = t) (expr : Str) :
    parseFilterExpression expr t = filterLoop t [(t, [])] (splitOnStr (str ";") expr) := by
  unfold parseFilterExpression
  have hinit : (OMap.empty.insert (jsTrim t) [] : FilterMap) = [(t, [])] := by
    rw [ht]
    rfl
  rw [hinit]

theorem parseFilterExpression_ok (t expr : Str) (ht : jsTrim t = t)
    (h : ∀ f1 ∈ splitOnStr (str ";") expr, (execOp f1).isSome) :
    parseFilterExpression expr t =
      .ok [(t, (splitOnStr (str ";") expr).map clauseParts)] := by
  rw [parseFilterExpression_init t ht expr, filterLoop_ok t [] _ h]
  simp

theorem parseFilterExpression_isErr_iff (t expr : Str) (ht : jsTrim t = t) :
    isErr (parseFilterExpression expr t) = true ↔
      ∃ f1 ∈ splitOnStr (str ";") expr, execOp f1 = none := by
  rw [parseFilterExpression_init t ht expr]
  exact filterLoop_isErr_iff t [] _

theorem parsePaginationExpression_ok (t expr : Str) (ht : jsTrim t = t) :
    parsePaginationExpression expr t =
      .ok [(t, (splitOnStr (str ";") expr).map
        (fun f1 => (splitOnStr (str "=") f1).map jsTrim))] := by
  unfold parsePaginationExpression
  have hinit : (OMap.empty.insert (jsTrim t) [] : PagMap) = [(t, [])] := by
    rw [ht]
    rfl
  rw [hinit, pagLoop_ok t [] _]
  simp

theorem parseFilterExpression_untrimmed (t expr : Str) (ht : jsTrim t ≠ t) :
    parseFilterExpression expr t =
      match execOp (firstClause expr) with
      | none => .error (.generic (str "Filter operation not suported in: " ++ firstClause expr))
      | some _ =>
        .error (.typeError (str "Cannot read properties of undefined (reading push)")) := by
  unfold parseFilterExpression
  have hinit : (OMap.empty.insert (jsTrim t) [] : FilterMap) = [(jsTrim t, [])] := rfl
  rw [hinit]
  cases hc : splitOnStr (str ";") expr with
  | nil => exact absurd hc (splitOnStr_ne_nil _ _)
  | cons f1 cs =>
    have hfc : firstClause expr = f1 := by
      unfold firstClause
      rw [hc]
      rfl
    rw [hfc]
    exact filterLoop_untrimmed ht [] f1 cs

theorem parsePaginationExpression_untrimmed (t expr : Str) (ht : jsTrim t ≠ t) :
    parsePaginationExpression expr t =
      .error (.typeError (str "Cannot read properties of undefined (reading push)")) := by
  unfold parsePaginationExpression
  have hinit : (OMap.empty.insert (jsTrim t) [] : PagMap) = [(jsTrim t, [])] := rfl
  rw [hinit]
  cases hc : splitOnStr (str ";") expr with
  | nil => exact absurd hc (splitOnStr_ne_nil _ _)
  | cons f1 cs => exact pagLoop_untrimmed ht [] f1 cs

theorem resolverAt_setResolver_self (res : Resolvers) (ns f : Str) (h : Handler) :
    resolverAt (setResolver res ns f h) ns f = some h := by
  unfold resolverAt setResolver
  rw [OMap.find?_insert_self]
  simp [OMap.find?_insert_self]

theorem resolverAt_setResolver_ne_field (res : Resolvers) (ns f f' : Str) (h : Handler)
    (hne : f' ≠ f) : resolverAt (setResolver res ns f' h) ns f = resolverAt res ns f := by
  unfold resolverAt setResolver
  rw [OMap.find?_insert_self]
  cases hfind : res.find? ns with
  | none => simp [OMap.find?_insert_ne _ _ _ _ hne, OMap.empty, OMap.find?, hne]
  | some m => simp [OMap.find?_insert_ne _ _ _ _ hne]

theorem resolverAt_setResolver_ne_ns (res : Resolvers) (ns ns' f f' : Str) (h : Handler)
    (hne : ns' ≠ ns) : resolverAt (setResolver res ns' f' h) ns f = resolverAt res ns f := by
  unfold resolverAt setResolver
  rw [OMap.find?_insert_ne _ _ _ _ hne]

theorem createForeign_preserves (res : Resolvers) (t : Str)
    (cols : List (Str × ColumnMeta)) (f : Str)
    (h : ∀ p ∈ cols, ∀ n, genForeignName p = some n → n ≠ f) :
    resolverAt (createForeignFieldsResolvers res t cols) (toCamelCase t) f =
      resolverAt res (toCamelCase t) f := by
  induction cols generalizing res with
  | nil => rfl
  | cons p rest ih =>
    unfold createForeignFieldsResolvers at ih ⊢
    rw [List.foldl_cons]
    cases hfr : p.2.foreign with
    | none => exact ih res (fun q hq => h q (List.mem_cons_of_mem p hq))
    | some fr =>
      rw [ih _ (fun q hq => h q (List.mem_cons_of_mem p hq))]
      exact resolverAt_setResolver_ne_field res _ f _ _
        (h p (List.mem_cons_self p rest) _ (by simp [genForeignName, hfr]))

/-- After `createForeignFieldsResolvers`, each foreign-key column whose
    generated field name is unique carries its relation resolver under
    `resolvers[camelCase(t)][column + '_' + foreignTable]`. -/
theorem createForeign_registered (res : Resolvers) (t : Str)
    (cols : List (Str × ColumnMeta)) (c : Str) (column : ColumnMeta) (fr : ForeignRef)
    (hmem : (c, column) ∈ cols) (hfr : column.foreign = some fr)
    (hnodup : (cols.filterMap genForeignName).Nodup) :
    resolverAt (createForeignFieldsResolvers res t cols) (toCamelCase t)
      (c ++ str "_" ++ fr.tablename) = some (.foreignField column fr) := by
  induction cols generalizing res with
  | nil => exact absurd hmem (List.not_mem_nil _)
  | cons p rest ih =>
    rcases List.mem_cons.mp hmem with he | hmem'
    · subst he
      unfold createForeignFieldsResolvers
      rw [List.foldl_cons]
      simp only [hfr]
      have hgen : genForeignName (c, column) = some (c ++ str "_" ++ fr.tablename) := by
        simp [genForeignName, hfr]
      have hrest : ∀ q ∈ rest, ∀ n, genForeignName q = some n →
          n ≠ c ++ str "_" ++ fr.tablename := by
        intro q hq n hn he'
        rw [List.filterMap_cons, hgen] at hnodup
        have hne := (List.nodup_cons.mp hnodup).1
        exact hne (he' ▸ List.mem_filterMap.mpr ⟨q, hq, hn⟩)
      show resolverAt
        (createForeignFieldsResolvers
          (setResolver res (toCamelCase t) (c ++ str "_" ++ fr.tablename)
            (Handler.foreignField column fr)) t rest)
        (toCamelCase t) (c ++ str "_" ++ fr.tablename) = _
      rw [createForeign_preserves _ t rest _ hrest]
      exact resolverAt_setResolver_self res _ _ _
    · unfold createForeignFieldsResolvers
      rw [List.foldl_cons]
      have hnodup' : (rest.filterMap genForeignName).Nodup := by
        rw [List.filterMap_cons] at hnodup
        cases hg : genForeignName p with
        | none => rwa [hg] at hnodup
        | some n =>
          rw [hg] at hnodup
          exact (List.nodup_cons.mp hnodup).2
      cases hfr' : p.2.foreign with
      | none => exact ih _ hmem' hnodup'
      | some fr' => exact ih _ hmem' hnodup'

/-! ## Compiler lemmas -/

theorem omap2Set_find_self {β : Type} (m : OMap (OMap β)) (k1 k2 : Str) (v : β) :
    (omap2Set m k1 k2 v).find? k1 =
      some (((m.find? k1).getD OMap.empty).insert k2 v) :=
  OMap.find?_insert_self m k1 _

theorem omap2Set_find_ne {β : Type} (m : OMap (OMap β)) (k1 k k2 : Str) (v : β)
    (h : k ≠ k1) : (omap2Set m k1 k2 v).find? k = m.find? k :=
  OMap.find?_insert_ne m k1 k _ (Ne.symm h)

theorem omap2Set_keyList_mem {β : Type} (m : OMap (OMap β)) (k1 k2 : Str) (v : β)
    (h : k1 ∈ m.keyList) : (omap2Set m k1 k2 v).keyList = m.keyList :=
  OMap.keyList_insert_mem m k1 _ h

theorem omap2Fold_find {α β : Type} (k1 : Str) (gen : α → Option (Str × β))
    (xs : List α) (m : OMap (OMap β)) (inner : OMap β) (h : m.find? k1 = some inner) :
    (omap2Fold k1 gen xs m).find? k1 = some (innerFold gen xs inner) := by
  induction xs generalizing m inner with
  | nil => exact h
  | cons x xs ih =>
    cases hg : gen x with
    | none =>
      simp only [omap2Fold, innerFold, hg]
      exact ih m inner h
    | some kv =>
      simp only [omap2Fold, innerFold, hg]
      refine ih _ _ ?_
      rw [omap2Set_find_self, h]
      rfl

theorem omap2Fold_find_ne {α β : Type} (k1 : Str) (gen : α → Option (Str × β))
    (xs : List α) (m : OMap (OMap β)) (k : Str) (h : k ≠ k1) :
    (omap2Fold k1 gen xs m).find? k = m.find? k := by
  induction xs generalizing m with
  | nil => rfl
  | cons x xs ih =>
    cases hg : gen x with
    | none =>
      simp only [omap2Fold, hg]
      exact ih m
    | some kv =>
      simp only [omap2Fold, hg]
      rw [ih _]
      exact omap2Set_find_ne m k1 k _ _ h

theorem omap2Fold_keyList {α β : Type} (k1 : Str) (gen : α → Option (Str × β))
    (xs : List α) (m : OMap (OMap β)) (h : k1 ∈ m.keyList) :
    (omap2Fold k1 gen xs m).keyList = m.keyList := by
  induction xs generalizing m with
  | nil => rfl
  | cons x xs ih =>
    cases hg : gen x with
    | none =>
      simp only [omap2Fold, hg]
      exact ih m h
    | some kv =>
      simp only [omap2Fold, hg]
      rw [ih _ (by rw [omap2Set_keyList_mem m k1 _ _ h]; exact h)]
      exact omap2Set_keyList_mem m k1 _ _ h

theorem innerFold_append {α β : Type} (gen : α → Option (Str × β)) (xs : List α)
    (m0 : OMap β)
    (hfresh : ∀ x ∈ xs, ∀ kv, gen x = some kv → ¬ kv.1 ∈ m0.keyList)
    (hnodup : (xs.filterMap (fun x => (gen x).map Prod.fst)).Nodup) :
    innerFold gen xs m0 = m0 ++ xs.filterMap gen := by
  induction xs generalizing m0 with
  | nil => simp [innerFold]
  | cons x xs ih =>
    cases hg : gen x with
    | none =>
      simp only [innerFold, hg]
      rw [List.filterMap_cons_none hg]
      refine ih m0 (fun y hy kv hkv => hfresh y (List.mem_cons_of_mem x hy) kv hkv) ?_
      rw [List.filterMap_cons] at hnodup
      rw [hg] at hnodup
      simpa using hnodup
    | some kv =>
      simp only [innerFold, hg]
      rw [List.filterMap_cons_some hg]
      rw [OMap.insert_fresh_append m0 kv.1 kv.2 (hfresh x (List.mem_cons_self x xs) kv hg)]
      have hnodup' : (xs.filterMap (fun x => (gen x).map Prod.fst)).Nodup := by
        rw [List.filterMap_cons, hg] at hnodup
        exact (List.nodup_cons.mp hnodup).2
      have hhead : ¬ kv.1 ∈ xs.filterMap (fun x => (gen x).map Prod.fst) := by
        rw [List.filterMap_cons, hg] at hnodup
        exact (List.nodup_cons.mp hnodup).1
      have hfresh' : ∀ y ∈ xs, ∀ kv', gen y = some kv' →
          ¬ kv'.1 ∈ (m0 ++ [(kv.1, kv.2)]).keyList := by
        intro y hy kv' hkv'
        rw [OMap.keyList_append]
        intro hmem
        rcases List.mem_append.mp hmem with hm | hm
        · exact hfresh y (List.mem_cons_of_mem x hy) kv' hkv' hm
        · have hk : kv'.1 = kv.1 := by simpa [OMap.keyList] using hm
          exact hhead (hk ▸ List.mem_filterMap.mpr ⟨y, hy, by rw [hkv']; rfl⟩)
      rw [ih _ hfresh' hnodup']
      simp

theorem ensureType_present (s : Schema) (k : Str) (h : (s.type.find? k).isSome) :
    ensureType s k = s := by
  simp [ensureType, h]

theorem ensureType_absent_find (s : Schema) (k : Str) (h : s.type.find? k = none) :
    (ensureType s k).type.find? k = some OMap.empty := by
  simp only [ensureType, h, Option.isSome_none, Bool.false_eq_true, if_false]
  exact OMap.find?_insert_self s.type k OMap.empty

theorem ensureType_find_ne (s : Schema) (k k' : Str) (h : k' ≠ k) :
    (ensureType s k).type.find? k' = s.type.find? k' := by
  unfold ensureType
  split
  · rfl
  · exact OMap.find?_insert_ne s.type k k' OMap.empty (Ne.symm h)

theorem ensureType_keyList_absent (s : Schema) (k : Str) (h : s.type.find? k = none) :
    OMap.keyList (ensureType s k).type = OMap.keyList s.type ++ [k] := by
  simp only [ensureType, h, Option.isSome_none, Bool.false_eq_true, if_false]
  exact OMap.keyList_insert_fresh s.type k OMap.empty (OMap.not_mem_of_find?_none s.type k h)

theorem ensureType_input (s : Schema) (k : Str) : (ensureType s k).input = s.input := by
  unfold ensureType
  split <;> rfl

theorem ensureType_isSome (s : Schema) (k : Str) :
    ((ensureType s k).type.find? k).isSome := by
  unfold ensureType
  split
  · assumption
  · rw [OMap.find?_insert_self]
    rfl

theorem mapType_find_camel (m : ColumnTypeMapper) (tm : TableMeta) (s : Schema) (t : Str)
    (hfresh : s.type.find? (toCamelCase t) = none)
    (hnodup : ((genTypeFields m tm).map Prod.fst).Nodup) :
    (mapDbTableToGraphqlType m tm s t).type.find? (toCamelCase t) =
      some (genTypeFields m tm) := by
  have hens := ensureType_absent_find s (toCamelCase t) hfresh
  have hkeys : (genTypeFields m tm).map Prod.fst =
      tm.columns.filterMap (fun p => (scalarGen m p).map Prod.fst) ++
      (tm.columns.filterMap (fun p => (foreignGen p).map Prod.fst) ++
       tm.reverse.filterMap (fun r => (reverseGen r).map Prod.fst)) := by
    unfold genTypeFields
    rw [List.map_append, List.map_append, List.map_filterMap, List.map_filterMap,
      List.map_filterMap, List.append_assoc]
  rw [hkeys] at hnodup
  obtain ⟨hnS, hnFR, hdisjS⟩ := List.nodup_append.mp hnodup
  obtain ⟨hnF, hnR, hdisjF⟩ := List.nodup_append.mp hnFR
  have hmapS : OMap.keyList (tm.columns.filterMap (scalarGen m)) =
      tm.columns.filterMap (fun p => (scalarGen m p).map Prod.fst) :=
    List.map_filterMap _ _ _
  have e1 : innerFold (scalarGen m) tm.columns OMap.empty =
      tm.columns.filterMap (scalarGen m) := by
    rw [innerFold_append (scalarGen m) tm.columns OMap.empty
      (fun x hx kv hkv => by simp [OMap.empty, OMap.keyList]) hnS]
    rfl
  have e2 : innerFold foreignGen tm.columns (tm.columns.filterMap (scalarGen m)) =
      tm.columns.filterMap (scalarGen m) ++ tm.columns.filterMap foreignGen := by
    apply innerFold_append
    · intro x hx kv hkv hmem
      rw [hmapS] at hmem
      have hF : kv.1 ∈ tm.columns.filterMap (fun p => (foreignGen p).map Prod.fst) :=
        List.mem_filterMap.mpr ⟨x, hx, by rw [hkv]; rfl⟩
      exact hdisjS hmem (List.mem_append_left _ hF)
    · exact hnF
  have hmapF : OMap.keyList (tm.columns.filterMap foreignGen) =
      tm.columns.filterMap (fun p => (foreignGen p).map Prod.fst) :=
    List.map_filterMap _ _ _
  have e3 : innerFold reverseGen tm.reverse
      (tm.columns.filterMap (scalarGen m) ++ tm.columns.filterMap foreignGen) =
      genTypeFields m tm := by
    unfold genTypeFields
    apply innerFold_append
    · intro x hx kv hkv hmem
      have hR : kv.1 ∈ tm.reverse.filterMap (fun r => (reverseGen r).map Prod.fst) :=
        List.mem_filterMap.mpr ⟨x, hx, by rw [hkv]; rfl⟩
      rw [OMap.keyList_append, hmapS, hmapF] at hmem
      rcases List.mem_append.mp hmem with hm | hm
      · exact hdisjS hm (List.mem_append_right _ hR)
      · exact hdisjF hm hR
    · exact hnR
  simp only [mapDbTableToGraphqlType]
  rw [OMap.find?_insert_ne _ _ _ _ (append_ne_self (toCamelCase t) (str "Page") (by decide))]
  rw [omap2Fold_find _ _ _ _ _ (omap2Fold_find _ _ _ _ _ (omap2Fold_find _ _ _ _ _ hens))]
  rw [e1, e2, e3]

theorem mapType_keyList (m : ColumnTypeMapper) (tm : TableMeta) (s : Schema) (t : Str)
    (hfresh : s.type.find? (toCamelCase t) = none)
    (hpage : ¬ (toCamelCase t ++ str "Page") ∈ OMap.keyList s.type) :
    OMap.keyList (mapDbTableToGraphqlType m tm s t).type =
      OMap.keyList s.type ++ [toCamelCase t, toCamelCase t ++ str "Page"] := by
  have hens := ensureType_keyList_absent s (toCamelCase t) hfresh
  have hmem : toCamelCase t ∈ OMap.keyList (ensureType s (toCamelCase t)).type := by
    rw [hens]
    exact List.mem_append_right _ (List.mem_singleton.mpr rfl)
  simp only [mapDbTableToGraphqlType]
  have hk1 := omap2Fold_keyList (toCamelCase t) (scalarGen m) tm.columns
    (ensureType s (toCamelCase t)).type hmem
  have hmem1 : toCamelCase t ∈
      OMap.keyList (omap2Fold (toCamelCase t) (scalarGen m) tm.columns
        (ensureType s (toCamelCase t)).type) := by
    rw [hk1]; exact hmem
  have hk2 := omap2Fold_keyList (toCamelCase t) foreignGen tm.columns _ hmem1
  have hmem2 : toCamelCase t ∈ OMap.keyList (omap2Fold (toCamelCase t) foreignGen
      tm.columns (omap2Fold (toCamelCase t) (scalarGen m) tm.columns
        (ensureType s (toCamelCase t)).type)) := by
    rw [hk2]; exact hmem1
  have hk3 := omap2Fold_keyList (toCamelCase t) reverseGen tm.reverse _ hmem2
  rw [OMap.keyList_insert_fresh _ _ _ ?hfreshpage]
  case hfreshpage =>
    rw [hk3, hk2, hk1, hens]
    intro hc
    rcases List.mem_append.mp hc with hm | hm
    · exact hpage hm
    · exact append_ne_self (toCamelCase t) (str "Page") (by decide)
        (List.mem_singleton.mp hm)
  rw [hk3, hk2, hk1, hens, List.append_assoc]
  rfl

theorem mapType_find_ne (m : ColumnTypeMapper) (tm : TableMeta) (s : Schema) (t k : Str)
    (hk1 : k ≠ toCamelCase t) (hk2 : k ≠ toCamelCase t ++ str "Page") :
    (mapDbTableToGraphqlType m tm s t).type.find? k = s.type.find? k := by
  simp only [mapDbTableToGraphqlType]
  rw [OMap.find?_insert_ne _ _ _ _ (Ne.symm hk2)]
  rw [omap2Fold_find_ne _ _ _ _ _ hk1, omap2Fold_find_ne _ _ _ _ _ hk1,
    omap2Fold_find_ne _ _ _ _ _ hk1]
  exact ensureType_find_ne s _ k hk1

theorem mapType_input (m : ColumnTypeMapper) (tm : TableMeta) (s : Schema) (t : Str) :
    (mapDbTableToGraphqlType m tm s t).input = s.input := by
  simp only [mapDbTableToGraphqlType]
  exact ensureType_input s _

theorem mapQuery_find_ne (s : Schema) (t k : Str) (hk : k ≠ str "Query") :
    (mapDbTableToGraphqlQuery s t).type.find? k = s.type.find? k := by
  simp only [mapDbTableToGraphqlQuery, setTypeField]
  rw [OMap.find?_insert_ne _ _ _ _ (Ne.symm hk)]
  exact ensureType_find_ne s _ k hk

theorem mapQuery_keyList_present (s : Schema) (t : Str)
    (h : (s.type.find? (str "Query")).isSome) :
    OMap.keyList (mapDbTableToGraphqlQuery s t).type = OMap.keyList s.type := by
  simp only [mapDbTableToGraphqlQuery, setTypeField, ensureType_present s _ h]
  exact OMap.keyList_insert_mem _ _ _ (OMap.find?_mem_keyList _ _ h)

theorem mapQuery_keyList_absent (s : Schema) (t : Str)
    (h : s.type.find? (str "Query") = none) :
    OMap.keyList (mapDbTableToGraphqlQuery s t).type =
      OMap.keyList s.type ++ [str "Query"] := by
  simp only [mapDbTableToGraphqlQuery, setTypeField]
  rw [OMap.keyList_insert_mem _ _ _ ?hmem, ensureType_keyList_absent s _ h]
  case hmem =>
    rw [ensureType_keyList_absent s _ h]
    exact List.mem_append_right _ (List.mem_singleton.mpr rfl)

theorem mapQuery_input (s : Schema) (t : Str) :
    (mapDbTableToGraphqlQuery s t).input = s.input := by
  simp only [mapDbTableToGraphqlQuery, setTypeField]
  exact ensureType_input s _

theorem mapQuery_isSome (s : Schema) (t : Str) :
    ((mapDbTableToGraphqlQuery s t).type.find? (str "Query")).isSome := by
  simp only [mapDbTableToGraphqlQuery, setTypeField]
  rw [OMap.find?_insert_self]
  rfl

theorem mapFirstOf_find_ne (s : Schema) (t k : Str) (hk : k ≠ str "Query") :
    (mapDbTableToGraphqlFirstOf s t).type.find? k = s.type.find? k := by
  simp only [mapDbTableToGraphqlFirstOf, setTypeField]
  rw [OMap.find?_insert_ne _ _ _ _ (Ne.symm hk)]
  exact ensureType_find_ne s _ k hk

theorem mapFirstOf_keyList_present (s : Schema) (t : Str)
    (h : (s.type.find? (str "Query")).isSome) :
    OMap.keyList (mapDbTableToGraphqlFirstOf s t).type = OMap.keyList s.type := by
  simp only [mapDbTableToGraphqlFirstOf, setTypeField, ensureType_present s _ h]
  exact OMap.keyList_insert_mem _ _ _ (OMap.find?_mem_keyList _ _ h)

theorem mapFirstOf_input (s : Schema) (t : Str) :
    (mapDbTableToGraphqlFirstOf s t).input = s.input := by
  simp only [mapDbTableToGraphqlFirstOf, setTypeField]
  exact ensureType_input s _

theorem mapFirstOf_isSome (s : Schema) (t : Str) :
    ((mapDbTableToGraphqlFirstOf s t).type.find? (str "Query")).isSome := by
  simp only [mapDbTableToGraphqlFirstOf, setTypeField]
  rw [OMap.find?_insert_self]
  rfl

theorem mapMutation_find_ne (s : Schema) (t k : Str) (hk : k ≠ str "Mutation") :
    (mapDbTableToGraphqlMutation s t).type.find? k = s.type.find? k := by
  simp only [mapDbTableToGraphqlMutation, setTypeField]
  rw [OMap.find?_insert_ne _ _ _ _ (Ne.symm hk)]
  exact ensureType_find_ne s _ k hk

theorem mapMutation_keyList_present (s : Schema) (t : Str)
    (h : (s.type.find? (str "Mutation")).isSome) :
    OMap.keyList (mapDbTableToGraphqlMutation s t).type = OMap.keyList s.type := by
  simp only [mapDbTableToGraphqlMutation, setTypeField, ensureType_present s _ h]
  exact OMap.keyList_insert_mem _ _ _ (OMap.find?_mem_keyList _ _ h)

theorem mapMutation_keyList_absent (s : Schema) (t : Str)
    (h : s.type.find? (str "Mutation") = none) :
    OMap.keyList (mapDbTableToGraphqlMutation s t).type =
      OMap.keyList s.type ++ [str "Mutation"] := by
  simp only [mapDbTableToGraphqlMutation, setTypeField]
  rw [OMap.keyList_insert_mem _ _ _ ?hmem, ensureType_keyList_absent s _ h]
  case hmem =>
    rw [ensureType_keyList_absent s _ h]
    exact List.mem_append_right _ (List.mem_singleton.mpr rfl)

theorem mapMutation_input (s : Schema) (t : Str) :
    (mapDbTableToGraphqlMutation s t).input = s.input := by
  simp only [mapDbTableToGraphqlMutation, setTypeField]
  exact ensureType_input s _

theorem mapMutation_isSome (s : Schema) (t : Str) :
    ((mapDbTableToGraphqlMutation s t).type.find? (str "Mutation")).isSome := by
  simp only [mapDbTableToGraphqlMutation, setTypeField]
  rw [OMap.find?_insert_self]
  rfl

theorem mapInput_type (m : ColumnTypeMapper) (tm : TableMeta) (s : Schema) (t : Str) :
    (mapDbTableToGraphqlInput m tm s t).type = s.type := rfl

theorem mapInput_find_name (m : ColumnTypeMapper) (tm : TableMeta) (s : Schema) (t : Str)
    (hfresh : s.input.find? (getInputName t) = none)
    (hnodup : ((genInputFields m tm).map Prod.fst).Nodup) :
    (mapDbTableToGraphqlInput m tm s t).input.find? (getInputName t) =
      some (genInputFields m tm) := by
  have hnodup' : (tm.columns.filterMap (fun p => (inputGen m p).map Prod.fst)).Nodup := by
    rw [← List.map_filterMap]
    exact hnodup
  simp only [mapDbTableToGraphqlInput, hfresh, Option.isSome_none, Bool.false_eq_true,
    if_false]
  rw [omap2Fold_find _ _ _ _ _ (OMap.find?_insert_self s.input _ OMap.empty)]
  rw [innerFold_append (inputGen m) tm.columns OMap.empty
    (fun x hx kv hkv => by simp [OMap.empty, OMap.keyList]) hnodup']
  rfl

theorem mapInput_find_ne (m : ColumnTypeMapper) (tm : TableMeta) (s : Schema) (t k : Str)
    (hk : k ≠ getInputName t) :
    (mapDbTableToGraphqlInput m tm s t).input.find? k = s.input.find? k := by
  simp only [mapDbTableToGraphqlInput]
  rw [omap2Fold_find_ne _ _ _ _ _ hk]
  split
  · rfl
  · exact OMap.find?_insert_ne s.input _ k OMap.empty (Ne.symm hk)

theorem mapInput_keyList_absent (m : ColumnTypeMapper) (tm : TableMeta) (s : Schema)
    (t : Str) (hfresh : s.input.find? (getInputName t) = none) :
    OMap.keyList (mapDbTableToGraphqlInput m tm s t).input =
      OMap.keyList s.input ++ [getInputName t] := by
  simp only [mapDbTableToGraphqlInput, hfresh, Option.isSome_none, Bool.false_eq_true,
    if_false]
  rw [omap2Fold_keyList _ _ _ _ ?hmem]
  · exact OMap.keyList_insert_fresh s.input _ OMap.empty
      (OMap.not_mem_of_find?_none s.input _ hfresh)
  case hmem =>
    rw [OMap.keyList_insert_fresh s.input _ OMap.empty
      (OMap.not_mem_of_find?_none s.input _ hfresh)]
    exact List.mem_append_right _ (List.mem_singleton.mpr rfl)

theorem buildTable_find_camel (m : ColumnTypeMapper) (s : Schema) (p : Str × TableMeta)
    (hfresh : s.type.find? (toCamelCase p.1) = none)
    (hQc : toCamelCase p.1 ≠ str "Query") (hMc : toCamelCase p.1 ≠ str "Mutation")
    (hinner : ((genTypeFields m p.2).map Prod.fst).Nodup) :
    (buildTable m s p).type.find? (toCamelCase p.1) = some (genTypeFields m p.2) := by
  simp only [buildTable]
  rw [mapInput_type, mapMutation_find_ne _ _ _ hMc, mapFirstOf_find_ne _ _ _ hQc,
    mapQuery_find_ne _ _ _ hQc]
  exact mapType_find_camel m p.2 s p.1 hfresh hinner

theorem buildTable_find_input (m : ColumnTypeMapper) (s : Schema) (p : Str × TableMeta)
    (hifresh : s.input.find? (getInputName p.1) = none)
    (hinnerI : ((genInputFields m p.2).map Prod.fst).Nodup) :
    (buildTable m s p).input.find? (getInputName p.1) = some (genInputFields m p.2) := by
  simp only [buildTable]
  apply mapInput_find_name
  · rw [mapMutation_input, mapFirstOf_input, mapQuery_input, mapType_input]
    exact hifresh
  · exact hinnerI

theorem buildTable_keyList_type_present (m : ColumnTypeMapper) (s : Schema)
    (p : Str × TableMeta)
    (hfresh : s.type.find? (toCamelCase p.1) = none)
    (hpage : ¬ (toCamelCase p.1 ++ str "Page") ∈ OMap.keyList s.type)
    (hQc : toCamelCase p.1 ≠ str "Query") (hQp : toCamelCase p.1 ++ str "Page" ≠ str "Query")
    (hMc : toCamelCase p.1 ≠ str "Mutation")
    (hMp : toCamelCase p.1 ++ str "Page" ≠ str "Mutation")
    (hQ : (s.type.find? (str "Query")).isSome)
    (hM : (s.type.find? (str "Mutation")).isSome) :
    OMap.keyList (buildTable m s p).type =
      OMap.keyList s.type ++ [toCamelCase p.1, toCamelCase p.1 ++ str "Page"] := by
  simp only [buildTable]
  have hQ1 : ((mapDbTableToGraphqlType m p.2 s p.1).type.find? (str "Query")).isSome := by
    rw [mapType_find_ne m p.2 s p.1 _ (Ne.symm hQc) (Ne.symm hQp)]
    exact hQ
  have hM3 : ((mapDbTableToGraphqlFirstOf (mapDbTableToGraphqlQuery
      (mapDbTableToGraphqlType m p.2 s p.1) p.1) p.1).type.find? (str "Mutation")).isSome := by
    rw [mapFirstOf_find_ne _ _ _ (by decide), mapQuery_find_ne _ _ _ (by decide),
      mapType_find_ne m p.2 s p.1 _ (Ne.symm hMc) (Ne.symm hMp)]
    exact hM
  rw [mapInput_type, mapMutation_keyList_present _ _ hM3,
    mapFirstOf_keyList_present _ _ (mapQuery_isSome _ _),
    mapQuery_keyList_present _ _ hQ1]
  exact mapType_keyList m p.2 s p.1 hfresh hpage

theorem buildTable_keyList_type_absent (m : ColumnTypeMapper) (s : Schema)
    (p : Str × TableMeta)
    (hfresh : s.type.find? (toCamelCase p.1) = none)
    (hpage : ¬ (toCamelCase p.1 ++ str "Page") ∈ OMap.keyList s.type)
    (hQc : toCamelCase p.1 ≠ str "Query") (hQp : toCamelCase p.1 ++ str "Page" ≠ str "Query")
    (hMc : toCamelCase p.1 ≠ str "Mutation")
    (hMp : toCamelCase p.1 ++ str "Page" ≠ str "Mutation")
    (hQ : s.type.find? (str "Query") = none)
    (hM : s.type.find? (str "Mutation") = none) :
    OMap.keyList (buildTable m s p).type =
      OMap.keyList s.type ++
        [toCamelCase p.1, toCamelCase p.1 ++ str "Page", str "Query", str "Mutation"] := by
  simp only [buildTable]
  have hQ1 : (mapDbTableToGraphqlType m p.2 s p.1).type.find? (str "Query") = none := by
    rw [mapType_find_ne m p.2 s p.1 _ (Ne.symm hQc) (Ne.symm hQp)]
    exact hQ
  have hM3 : (mapDbTableToGraphqlFirstOf (mapDbTableToGraphqlQuery
      (mapDbTableToGraphqlType m p.2 s p.1) p.1) p.1).type.find? (str "Mutation") = none := by
    rw [mapFirstOf_find_ne _ _ _ (by decide), mapQuery_find_ne _ _ _ (by decide),
      mapType_find_ne m p.2 s p.1 _ (Ne.symm hMc) (Ne.symm hMp)]
    exact hM
  rw [mapInput_type, mapMutation_keyList_absent _ _ hM3,
    mapFirstOf_keyList_present _ _ (mapQuery_isSome _ _),
    mapQuery_keyList_absent _ _ hQ1,
    mapType_keyList m p.2 s p.1 hfresh hpage]
  simp [List.append_assoc]

theorem buildTable_keyList_input (m : ColumnTypeMapper) (s : Schema) (p : Str × TableMeta)
    (hifresh : s.input.find? (getInputName p.1) = none) :
    OMap.keyList (buildTable m s p).input =
      OMap.keyList s.input ++ [getInputName p.1] := by
  simp only [buildTable]
  rw [mapInput_keyList_absent _ _ _ _ ?hfr, mapMutation_input, mapFirstOf_input,
    mapQuery_input, mapType_input]
  case hfr =>
    rw [mapMutation_input, mapFirstOf_input, mapQuery_input, mapType_input]
    exact hifresh

theorem buildTable_preserve_type (m : ColumnTypeMapper) (s : Schema) (p : Str × TableMeta)
    (k : Str) (hk1 : k ≠ toCamelCase p.1) (hk2 : k ≠ toCamelCase p.1 ++ str "Page")
    (hkQ : k ≠ str "Query") (hkM : k ≠ str "Mutation") :
    (buildTable m s p).type.find? k = s.type.find? k := by
  simp only [buildTable]
  rw [mapInput_type, mapMutation_find_ne _ _ _ hkM, mapFirstOf_find_ne _ _ _ hkQ,
    mapQuery_find_ne _ _ _ hkQ]
  exact mapType_find_ne m p.2 s p.1 k hk1 hk2

theorem buildTable_preserve_input (m : ColumnTypeMapper) (s : Schema) (p : Str × TableMeta)
    (k : Str) (hk : k ≠ getInputName p.1) :
    (buildTable m s p).input.find? k = s.input.find? k := by
  simp only [buildTable]
  rw [mapInput_find_ne _ _ _ _ _ hk, mapMutation_input, mapFirstOf_input, mapQuery_input,
    mapType_input]

theorem buildTable_Query_isSome (m : ColumnTypeMapper) (s : Schema) (p : Str × TableMeta) :
    ((buildTable m s p).type.find? (str "Query")).isSome := by
  simp only [buildTable]
  rw [mapInput_type, mapMutation_find_ne _ _ _ (by decide)]
  exact mapFirstOf_isSome _ _

theorem buildTable_Mutation_isSome (m : ColumnTypeMapper) (s : Schema)
    (p : Str × TableMeta) :
    ((buildTable m s p).type.find? (str "Mutation")).isSome := by
  simp only [buildTable]
  rw [mapInput_type]
  exact mapMutation_isSome _ _

theorem fst_nodup_eq {γ : Type} {l : List (Str × γ)} (h : (l.map Prod.fst).Nodup)
    {a : Str} {b c : γ} (hb : (a, b) ∈ l) (hc : (a, c) ∈ l) : b = c := by
  induction l with
  | nil => exact absurd hb (List.not_mem_nil _)
  | cons p rest ih =>
    rw [List.map_cons] at h
    obtain ⟨hnot, hrest⟩ := List.nodup_cons.mp h
    rcases List.mem_cons.mp hb with he1 | hm1 <;> rcases List.mem_cons.mp hc with he2 | hm2
    · rw [← he1] at he2
      exact congrArg Prod.snd he2.symm |>.trans rfl
    · exfalso
      exact hnot (by rw [← he1]; exact List.mem_map.mpr ⟨(a, c), hm2, rfl⟩)
    · exfalso
      exact hnot (by rw [← he2]; exact List.mem_map.mpr ⟨(a, b), hm1, rfl⟩)
    · exact ih hrest hm1 hm2

theorem find?_of_mem_nodup {γ : Type} (l : OMap γ) (h : (l.map Prod.fst).Nodup)
    {k : Str} {v : γ} (hm : (k, v) ∈ l) : l.find? k = some v := by
  induction l with
  | nil => exact absurd hm (List.not_mem_nil _)
  | cons p rest ih =>
    rw [List.map_cons] at h
    obtain ⟨hnot, hrest⟩ := List.nodup_cons.mp h
    rcases List.mem_cons.mp hm with he | hm'
    · rw [← he]
      simp [OMap.find?]
    · have hp : p.1 ≠ k := by
        intro he'
        exact hnot (by rw [he']; exact List.mem_map.mpr ⟨(k, v), hm', rfl⟩)
      simp only [OMap.find?, hp, if_false]
      exact ih hrest hm'

theorem camel_mem_typeKeysOf {db : DbSchema} {q : Str × TableMeta} (h : q ∈ db) :
    toCamelCase q.1 ∈ typeKeysOf db := by
  induction db with
  | nil => exact absurd h (List.not_mem_nil q)
  | cons p db ih =>
    rw [typeKeysOf]
    rcases List.mem_cons.mp h with he | hm
    · rw [he]
      exact List.mem_cons_self _ _
    · exact List.mem_cons_of_mem _ (List.mem_cons_of_mem _ (ih hm))

theorem page_mem_typeKeysOf {db : DbSchema} {q : Str × TableMeta} (h : q ∈ db) :
    toCamelCase q.1 ++ str "Page" ∈ typeKeysOf db := by
  induction db with
  | nil => exact absurd h (List.not_mem_nil q)
  | cons p db ih =>
    rw [typeKeysOf]
    rcases List.mem_cons.mp h with he | hm
    · rw [he]
      exact List.mem_cons_of_mem _ (List.mem_cons_self _ _)
    · exact List.mem_cons_of_mem _ (List.mem_cons_of_mem _ (ih hm))

theorem iname_mem_inputKeysOf {db : DbSchema} {q : Str × TableMeta} (h : q ∈ db) :
    getInputName q.1 ∈ inputKeysOf db := by
  induction db with
  | nil => exact absurd h (List.not_mem_nil q)
  | cons p db ih =>
    rw [inputKeysOf]
    rcases List.mem_cons.mp h with he | hm
    · rw [he]
      exact List.mem_cons_self _ _
    · exact List.mem_cons_of_mem _ (ih hm)

/-- How a full build transforms a schema state that already carries Query
    and Mutation: type keys extend in per-table `[Type, TypePage]` order,
    input keys in per-table order, each table's type object holds exactly
    its generated fields, and untouched keys are preserved. -/
theorem async_buildSchema_effect (m : ColumnTypeMapper) (db : DbSchema) (s : Schema)
    (hQ : (s.type.find? (str "Query")).isSome)
    (hM : (s.type.find? (str "Mutation")).isSome)
    (htf : ∀ p ∈ db, s.type.find? (toCamelCase p.1) = none)
    (hpf : ∀ p ∈ db, ¬ (toCamelCase p.1 ++ str "Page") ∈ OMap.keyList s.type)
    (hif : ∀ p ∈ db, s.input.find? (getInputName p.1) = none)
    (hTnodup : (typeKeysOf db).Nodup)
    (hInodup : (inputKeysOf db).Nodup)
    (hQM : ∀ k ∈ typeKeysOf db, k ≠ str "Query" ∧ k ≠ str "Mutation")
    (hinner : ∀ p ∈ db, ((genTypeFields m p.2).map Prod.fst).Nodup)
    (hinnerI : ∀ p ∈ db, ((genInputFields m p.2).map Prod.fst).Nodup) :
    OMap.keyList (async_buildSchema m db s).type = OMap.keyList s.type ++ typeKeysOf db ∧
    OMap.keyList (async_buildSchema m db s).input = OMap.keyList s.input ++ inputKeysOf db ∧
    (∀ p ∈ db, (async_buildSchema m db s).type.find? (toCamelCase p.1) =
      some (genTypeFields m p.2)) ∧
    (∀ p ∈ db, (async_buildSchema m db s).input.find? (getInputName p.1) =
      some (genInputFields m p.2)) ∧
    (∀ k, k ≠ str "Query" → k ≠ str "Mutation" → ¬ k ∈ typeKeysOf db →
      (async_buildSchema m db s).type.find? k = s.type.find? k) ∧
    (∀ k, ¬ k ∈ inputKeysOf db →
      (async_buildSchema m db s).input.find? k = s.input.find? k) := by
  induction db generalizing s with
  | nil =>
    refine ⟨by simp [async_buildSchema, typeKeysOf], by simp [async_buildSchema, inputKeysOf],
      ?_, ?_, ?_, ?_⟩
    · intro p hp
      exact absurd hp (List.not_mem_nil p)
    · intro p hp
      exact absurd hp (List.not_mem_nil p)
    · intro k _ _ _
      rfl
    · intro k _
      rfl
  | cons p db ih =>
    have hpmem := List.mem_cons_self p db
    have hfreshp := htf p hpmem
    have hpagep := hpf p hpmem
    have hifp := hif p hpmem
    have hcamelmem : toCamelCase p.1 ∈ typeKeysOf (p :: db) := by
      rw [typeKeysOf]
      exact List.mem_cons_self _ _
    have hpagemem : toCamelCase p.1 ++ str "Page" ∈ typeKeysOf (p :: db) := by
      rw [typeKeysOf]
      exact List.mem_cons_of_mem _ (List.mem_cons_self _ _)
    have hQc := (hQM _ hcamelmem).1
    have hMc := (hQM _ hcamelmem).2
    have hQp := (hQM _ hpagemem).1
    have hMp := (hQM _ hpagemem).2
    rw [typeKeysOf] at hTnodup
    obtain ⟨hcnotin, hTnodup1⟩ := List.nodup_cons.mp hTnodup
    obtain ⟨hpnotin, hTnodup'⟩ := List.nodup_cons.mp hTnodup1
    rw [inputKeysOf] at hInodup
    obtain ⟨hinotin, hInodup'⟩ := List.nodup_cons.mp hInodup
    have hcamelfind := buildTable_find_camel m s p hfreshp hQc hMc (hinner p hpmem)
    have hinputfind := buildTable_find_input m s p hifp (hinnerI p hpmem)
    have hkeysT := buildTable_keyList_type_present m s p hfreshp hpagep hQc hQp hMc hMp hQ hM
    have hkeysI := buildTable_keyList_input m s p hifp
    have hQ' := buildTable_Query_isSome m s p
    have hM' := buildTable_Mutation_isSome m s p
    have hQM' : ∀ k ∈ typeKeysOf db, k ≠ str "Query" ∧ k ≠ str "Mutation" := by
      intro k hk
      refine hQM k ?_
      rw [typeKeysOf]
      exact List.mem_cons_of_mem _ (List.mem_cons_of_mem _ hk)
    have htf' : ∀ q ∈ db, (buildTable m s p).type.find? (toCamelCase q.1) = none := by
      intro q hq
      have hqmem := camel_mem_typeKeysOf hq
      rw [buildTable_preserve_type m s p _
        (fun he => hcnotin (List.mem_cons_of_mem _ (he ▸ hqmem)))
        (fun he => hpnotin (he ▸ hqmem))
        (hQM' _ hqmem).1 (hQM' _ hqmem).2]
      exact htf q (List.mem_cons_of_mem p hq)
    have hpf' : ∀ q ∈ db,
        ¬ (toCamelCase q.1 ++ str "Page") ∈ OMap.keyList (buildTable m s p).type := by
      intro q hq hmem
      have hqmem := page_mem_typeKeysOf hq
      rw [hkeysT] at hmem
      rcases List.mem_append.mp hmem with hm | hm
      · exact hpf q (List.mem_cons_of_mem p hq) hm
      · rcases List.mem_cons.mp hm with he | hm'
        · exact hcnotin (List.mem_cons_of_mem _ (he ▸ hqmem))
        · exact hpnotin ((List.mem_singleton.mp hm') ▸ hqmem)
    have hif' : ∀ q ∈ db, (buildTable m s p).input.find? (getInputName q.1) = none := by
      intro q hq
      rw [buildTable_preserve_input m s p _
        (fun he => hinotin (he ▸ iname_mem_inputKeysOf hq))]
      exact hif q (List.mem_cons_of_mem p hq)
    obtain ⟨ih1, ih2, ih3, ih4, ih5, ih6⟩ := ih (buildTable m s p) hQ' hM' htf' hpf' hif'
      hTnodup' hInodup' hQM'
      (fun q hq => hinner q (List.mem_cons_of_mem p hq))
      (fun q hq => hinnerI q (List.mem_cons_of_mem p hq))
    refine ⟨?_, ?_, ?_, ?_, ?_, ?_⟩
    · show OMap.keyList (async_buildSchema m db (buildTable m s p)).type = _
      rw [ih1, hkeysT, typeKeysOf, List.append_assoc]
      rfl
    · show OMap.keyList (async_buildSchema m db (buildTable m s p)).input = _
      rw [ih2, hkeysI, inputKeysOf, List.append_assoc]
      rfl
    · intro q hq
      show (async_buildSchema m db (buildTable m s p)).type.find? (toCamelCase q.1) = _
      rcases List.mem_cons.mp hq with he | hq'
      · subst he
        rw [ih5 (toCamelCase q.1) hQc hMc
          (fun hmem => hcnotin (List.mem_cons_of_mem _ hmem))]
        exact hcamelfind
      · exact ih3 q hq'
    · intro q hq
      show (async_buildSchema m db (buildTable m s p)).input.find? (getInputName q.1) = _
      rcases List.mem_cons.mp hq with he | hq'
      · subst he
        rw [ih6 (getInputName q.1) hinotin]
        exact hinputfind
      · exact ih4 q hq'
    · intro k hkQ hkM hknotin
      rw [typeKeysOf] at hknotin
      have hk1 : k ≠ toCamelCase p.1 :=
        fun he => hknotin (he ▸ List.mem_cons_self _ _)
      have hk2 : k ≠ toCamelCase p.1 ++ str "Page" :=
        fun he => hknotin (he ▸ List.mem_cons_of_mem _ (List.mem_cons_self _ _))
      have hk3 : ¬ k ∈ typeKeysOf db :=
        fun hmem => hknotin (List.mem_cons_of_mem _ (List.mem_cons_of_mem _ hmem))
      show (async_buildSchema m db (buildTable m s p)).type.find? k = _
      rw [ih5 k hkQ hkM hk3]
      exact buildTable_preserve_type m s p k hk1 hk2 hkQ hkM
    · intro k hknotin
      rw [inputKeysOf] at hknotin
      have hk1 : k ≠ getInputName p.1 :=
        fun he => hknotin (he ▸ List.mem_cons_self _ _)
      have hk2 : ¬ k ∈ inputKeysOf db :=
        fun hmem => hknotin (List.mem_cons_of_mem _ hmem)
      show (async_buildSchema m db (buildTable m s p)).input.find? k = _
      rw [ih6 k hk2]
      exact buildTable_preserve_input m s p k hk1

/-- C2: for every filter clause containing at least one operator
occurrence, `parseFilterExpression` selects the clause's operator by a
leftmost-starting, fixed-priority scan over `<=>, >=, <=, =, >, <, ~, #`:
the match starting at the leftmost position wins, among operators matching
there the earliest in the list wins, and the parser uses that single
canonical operator as the clause head. -/
theorem claim_C2_operator_scan (f1 : Str)
    (h : ∃ op ∈ filterOps, ∃ i, opMatchAt op f1 i) :
    ∃ op i, execOp f1 = some op ∧ op ∈ filterOps ∧ opMatchAt op f1 i ∧
      (∀ j, j < i → ∀ op' ∈ filterOps, ¬ opMatchAt op' f1 j) ∧
      (∀ op' ∈ filterOps, opMatchAt op' f1 i →
        listIdx filterOps op ≤ listIdx filterOps op') ∧
      parseClause f1 = .ok (op :: (splitOnStr op f1).map jsTrim) := by
  obtain ⟨op, i, hexec, hmem, hmat, hleft, hpri⟩ := execOp_spec f1 h
  exact ⟨op, i, hexec, hmem, hmat, hleft, hpri, parseClause_of_execOp hexec⟩

/-- Witness for C2 at the clause `a>=b`, whose operator is `>=` (not `>`
or `=`). -/
theorem claim_C2_operator_scan_witness :
    execOp (str "a>=b") = some (str ">=") ∧
    (∃ op i, execOp (str "a>=b") = some op ∧ op ∈ filterOps ∧
      opMatchAt op (str "a>=b") i ∧
      (∀ j, j < i → ∀ op' ∈ filterOps, ¬ opMatchAt op' (str "a>=b") j) ∧
      (∀ op' ∈ filterOps, opMatchAt op' (str "a>=b") i →
        listIdx filterOps op ≤ listIdx filterOps op') ∧
      parseClause (str "a>=b") = .ok (op :: (splitOnStr op (str "a>=b")).map jsTrim)) :=
  ⟨by decide, claim_C2_operator_scan (str "a>=b") ⟨str ">=", by decide, 1, by decide⟩⟩

/-- C3 counterexample: on the clause `a=1=2` — whose value text contains a
further occurrence of the chosen operator `=` — the parser returns a
four-token condition, not an `[operator, field, value]` triple. -/
theorem claim_C3_counterexample :
    parseFilterExpression (str "a=1=2") (str "t") =
      .ok [(str "t", [[str "=", str "a", str "1", str "2"]])] ∧
    ([str "=", str "a", str "1", str "2"]).length ≠ 3 := by decide

/-- C3 (amended): for a trimmed table name and an expression whose
`;`-separated clauses each contain a recognized operator, the result has
the table name as its single key, mapped to one trimmed token list per
clause in clause order — a list whose head is the chosen operator followed
by the clause segments split on every occurrence of that operator, hence
exactly an `[op, field, value]` triple whenever the operator occurs exactly
once in the clause; in particular `a=1;b#2,3` yields exactly
`["=","a","1"]` and `["#","b","2,3"]`. -/
theorem claim_C3_parse_result (t expr : Str) (ht : jsTrim t = t)
    (hall : ∀ f1 ∈ splitOnStr (str ";") expr, (execOp f1).isSome) :
    parseFilterExpression expr t =
      .ok [(t, (splitOnStr (str ";") expr).map clauseParts)] ∧
    (∀ f1 op a b, execOp f1 = some op → splitOnStr op f1 = [a, b] →
      clauseParts f1 = [op, jsTrim a, jsTrim b]) ∧
    parseFilterExpression (str "a=1;b#2,3") (str "t") =
      .ok [(str "t", [[str "=", str "a", str "1"], [str "#", str "b", str "2,3"]])] := by
  refine ⟨parseFilterExpression_ok t expr ht hall, ?_, by decide⟩
  intro f1 op a b hexec hsplit
  have hmem := execOp_mem hexec
  have htr := filterOps_trim_id op hmem
  unfold clauseParts
  rw [hexec]
  simp [htr, hsplit]

/-- Witness for C3 (amended) at `a=1;b#2,3` over table `t`. -/
theorem claim_C3_parse_result_witness :
    parseFilterExpression (str "a=1;b#2,3") (str "t") =
      .ok [(str "t", (splitOnStr (str ";") (str "a=1;b#2,3")).map clauseParts)] :=
  (claim_C3_parse_result (str "t") (str "a=1;b#2,3") (by decide) (by decide)).1

/-- C6: for a trimmed table name, `parseFilterExpression` throws exactly
when some `;`-separated clause contains no occurrence of any of the eight
operators; a thrown error reaches the caller of `parseArgsCommon`
unchanged; and `parsePaginationExpression` performs no operator validation,
succeeding on arbitrary `key=value` text. -/
theorem claim_C6_error_behaviour (t expr s : Str) (args : Args) (e : JsError)
    (ht : jsTrim t = t) :
    (isErr (parseFilterExpression expr t) = true ↔
      ∃ f1 ∈ splitOnStr (str ";") expr, ∀ op ∈ filterOps, ∀ i, ¬ opMatchAt op f1 i) ∧
    (args.filter = some s → s ≠ [] → parseFilterExpression s t = .error e →
      parseArgsCommon t args = .error e) ∧
    parsePaginationExpression expr t =
      .ok [(t, (splitOnStr (str ";") expr).map
        (fun f1 => (splitOnStr (str "=") f1).map jsTrim))] := by
  refine ⟨?_, ?_, parsePaginationExpression_ok t expr ht⟩
  · rw [parseFilterExpression_isErr_iff t expr ht]
    exact exists_congr fun f1 => and_congr_right fun _ => execOp_none_iff f1
  · intro hf hs herr
    unfold parseArgsCommon
    rw [hf]
    simp only [hs, ne_eq, not_false_iff, if_true, herr]
    rfl

/-- Witness for C6: the operatorless expression `a` throws over table `t`,
and `parseArgsCommon` surfaces the parser's error object unchanged. -/
theorem claim_C6_error_behaviour_witness :
    parseArgsCommon (str "t") ⟨some (str "x"), none, []⟩ =
      .error (.generic (str "Filter operation not suported in: x")) ∧
    isErr (parseFilterExpression (str "a") (str "t")) = true :=
  have h := claim_C6_error_behaviour (str "t") (str "a") (str "x")
    ⟨some (str "x"), none, []⟩ (.generic (str "Filter operation not suported in: x"))
    (by decide)
  ⟨h.2.1 rfl (by decide) (by decide),
    h.1.mpr ⟨str "a", by decide, (execOp_none_iff (str "a")).mp (by decide)⟩⟩

/-- C9 counterexample: with the untrimmed table name ` t` and the
non-empty expression `a`, `parseFilterExpression` fails with the thrown
parse `Error`, not with a `TypeError`. -/
theorem claim_C9_counterexample :
    jsTrim (str " t") ≠ str " t" ∧ str "a" ≠ [] ∧
    parseFilterExpression (str "a") (str " t") =
      .error (.generic (str "Filter operation not suported in: a")) ∧
    (JsError.generic (str "Filter operation not suported in: a")).isTypeError = false := by
  decide

/-- C9 (amended): for every table name differing from its trimmed form and
every non-empty expression, both parsers fail rather than return a result —
the output key is created under the trimmed name while clauses are pushed
under the untrimmed name — `parsePaginationExpression` always with a
`TypeError`, and `parseFilterExpression` with a `TypeError` when its first
clause contains an operator and with its parse `Error` otherwise. -/
theorem claim_C9_untrimmed_table (t expr : Str) (ht : jsTrim t ≠ t) (hexpr : expr ≠ []) :
    isErr (parseFilterExpression expr t) = true ∧
    parsePaginationExpression expr t =
      .error (.typeError (str "Cannot read properties of undefined (reading push)")) ∧
    ((execOp (firstClause expr)).isSome →
      parseFilterExpression expr t =
        .error (.typeError (str "Cannot read properties of undefined (reading push)"))) ∧
    (execOp (firstClause expr) = none →
      parseFilterExpression expr t =
        .error (.generic (str "Filter operation not suported in: " ++ firstClause expr))) := by
  have hmain := parseFilterExpression_untrimmed t expr ht
  refine ⟨?_, parsePaginationExpression_untrimmed t expr ht, ?_, ?_⟩
  · rw [hmain]
    cases hexec : execOp (firstClause expr) <;> rfl
  · intro hsome
    rw [hmain]
    cases hexec : execOp (firstClause expr) with
    | none => rw [hexec] at hsome; simp at hsome
    | some op => rfl
  · intro hnone
    rw [hmain, hnone]

/-- Witness for C9 (amended) at table ` t` and expression `a=1`. -/
theorem claim_C9_untrimmed_table_witness :
    isErr (parseFilterExpression (str "a=1") (str " t")) = true ∧
    parsePaginationExpression (str "a=1") (str " t") =
      .error (.typeError (str "Cannot read properties of undefined (reading push)")) ∧
    parseFilterExpression (str "a=1") (str " t") =
      .error (.typeError (str "Cannot read properties of undefined (reading push)")) :=
  have h := claim_C9_untrimmed_table (str " t") (str "a=1") (by decide) (by decide)
  ⟨h.1, h.2.1, h.2.2.1 (by decide)⟩

/-- C4 counterexample: a `Bar` parent record whose `foo_id` column holds
the present (neither null nor undefined) value `0` makes the `foo_id_foo`
resolver return null without calling the driver, instead of delegating. -/
theorem claim_C4_counterexample :
    jsGet [(str "foo_id", JSVal.vNum 0)] (str "foo_id") = JSVal.vNum 0 ∧
    JSVal.vNum 0 ≠ JSVal.vNull ∧ JSVal.vNum 0 ≠ JSVal.vUndefined ∧
    foreignFieldResolver ⟨str "foo_id", str "integer", some ⟨str "foo", str "id"⟩⟩
      ⟨str "foo", str "id"⟩ [(str "foo_id", JSVal.vNum 0)] ⟨none, none, []⟩ =
      .ok .nullNoCall := by decide

/-- C4 (amended): the synthesized resolver is registered on field
`<column>_<foreignTable>`; it returns null without calling the driver when
the parent's local column value is absent *or otherwise falsy* (`0`, empty
string, `false`); otherwise it appends `<foreignColumn>#<localValue>` to
any caller-supplied filter — caller clauses first, joined with `;`, so
with no caller filter the effective filter is exactly
`<foreignColumn>#<localValue>` — and delegates to a single-record fetch
(`firstOf`) against the foreign table. -/
theorem claim_C4_foreign_resolver (column : ColumnMeta) (fr : ForeignRef)
    (item : OMap JSVal) (args : Args) :
    ((jsGet item column.name).truthy = false →
      foreignFieldResolver column fr item args = .ok .nullNoCall) ∧
    ((jsGet item column.name).truthy = true →
      foreignFieldResolver column fr item args =
        (parseArgsCommon fr.tablename
          { args with
            filter := some (foreignFilter fr args.filter (jsGet item column.name)) }).map
          (fun pa => .call (.firstOf fr.tablename pa))) ∧
    (args.filter = none →
      foreignFilter fr args.filter (jsGet item column.name) =
        fr.columnname ++ str "#" ++ (jsGet item column.name).toJSString) ∧
    (∀ f, args.filter = some f → f ≠ [] →
      foreignFilter fr args.filter (jsGet item column.name) =
        f ++ str ";" ++ fr.columnname ++ str "#" ++ (jsGet item column.name).toJSString) ∧
    (∀ (res : Resolvers) (t : Str) (cols : List (Str × ColumnMeta)) (c : Str),
      (c, column) ∈ cols → column.foreign = some fr →
      (cols.filterMap genForeignName).Nodup →
      resolverAt (createForeignFieldsResolvers res t cols) (toCamelCase t)
        (c ++ str "_" ++ fr.tablename) = some (.foreignField column fr)) := by
  refine ⟨?_, ?_, ?_, ?_, ?_⟩
  · intro hfalsy
    unfold foreignFieldResolver
    rw [hfalsy]
    rfl
  · intro htruthy
    unfold foreignFieldResolver GetFirstOfCall
    rw [htruthy]
    cases hpa : parseArgsCommon fr.tablename
        { args with filter := some (foreignFilter fr args.filter (jsGet item column.name)) } with
    | error e => simp [Except.map, hpa]
    | ok pa => simp [Except.map, hpa]
  · intro hnone
    unfold foreignFilter
    rw [hnone]
    simp
  · intro f hf hne
    unfold foreignFilter
    rw [hf]
    simp [hne, List.append_assoc]
  · intro res t cols c hmem hfr hnodup
    exact createForeign_registered res t cols c column fr hmem hfr hnodup

/-- Witness for C4 (amended): the spec's own example — a `Bar` record with
`foo_id = 1` and no caller filter issues `firstOf` on `foo` with the
parsed filter `id#1`; with `foo_id = null` it returns null without a
driver call. -/
theorem claim_C4_foreign_resolver_witness :
    foreignFieldResolver ⟨str "foo_id", str "integer", some ⟨str "foo", str "id"⟩⟩
      ⟨str "foo", str "id"⟩ [(str "foo_id", JSVal.vNum 1)] ⟨none, none, []⟩ =
      .ok (.call (.firstOf (str "foo")
        ⟨.parsedF [(str "foo", [[str "#", str "id", str "1"]])], .unparsed none, []⟩)) ∧
    foreignFieldResolver ⟨str "foo_id", str "integer", some ⟨str "foo", str "id"⟩⟩
      ⟨str "foo", str "id"⟩ [(str "foo_id", JSVal.vNull)] ⟨none, none, []⟩ =
      .ok .nullNoCall ∧
    resolverAt
      (createForeignFieldsResolvers [] (str "bar")
        [(str "id", ⟨str "id", str "serial", none⟩),
         (str "foo_id", ⟨str "foo_id", str "integer", some ⟨str "foo", str "id"⟩⟩)])
      (toCamelCase (str "bar")) (str "foo_id_foo") =
      some (.foreignField ⟨str "foo_id", str "integer", some ⟨str "foo", str "id"⟩⟩
        ⟨str "foo", str "id"⟩) :=
  have h1 := claim_C4_foreign_resolver
    ⟨str "foo_id", str "integer", some ⟨str "foo", str "id"⟩⟩ ⟨str "foo", str "id"⟩
    [(str "foo_id", JSVal.vNum 1)] ⟨none, none, []⟩
  have h0 := claim_C4_foreign_resolver
    ⟨str "foo_id", str "integer", some ⟨str "foo", str "id"⟩⟩ ⟨str "foo", str "id"⟩
    [(str "foo_id", JSVal.vNull)] ⟨none, none, []⟩
  ⟨by rw [h1.2.1 (by decide)]; decide,
   h0.1 (by decide),
   h1.2.2.2.2 [] (str "bar")
     [(str "id", ⟨str "id", str "serial", none⟩),
      (str "foo_id", ⟨str "foo_id", str "integer", some ⟨str "foo", str "id"⟩⟩)]
     (str "foo_id") (by decide) (by decide) (by decide)⟩

/-- C5: for every resolver registered via `add` and every invocation: a
falsy validator verdict makes the wrapped function return the `rejected`
callback's result without ever invoking the underlying handler; a truthy
verdict makes it return the handler's result; and under the constructor
defaults (always-true validator, null-returning rejected) the handler
always runs. -/
theorem claim_C5_hook_pipeline (hook : Hook) (db : JSVal) (ns name : Str)
    (cb : JSVal → Args → Ctx → JSVal) (root : JSVal) (args : Args) (context : Ctx) :
    ((hook.validator ns name root args
        (context.insert (str "ioc") (CtxVal.iocOf db))).truthy = false →
      (runWrapped hook db ns name cb root args context).result =
        hook.rejected ns name root args (context.insert (str "ioc") (CtxVal.iocOf db)) ∧
      (runWrapped hook db ns name cb root args context).handlerRan = false) ∧
    ((hook.validator ns name root args
        (context.insert (str "ioc") (CtxVal.iocOf db))).truthy = true →
      (runWrapped hook db ns name cb root args context).result =
        cb root args (context.insert (str "ioc") (CtxVal.iocOf db)) ∧
      (runWrapped hook db ns name cb root args context).handlerRan = true) ∧
    ((runWrapped defaultHook db ns name cb root args context).result =
        cb root args (context.insert (str "ioc") (CtxVal.iocOf db)) ∧
      (runWrapped defaultHook db ns name cb root args context).handlerRan = true) := by
  refine ⟨?_, ?_, ?_⟩
  · intro hfalsy
    simp [runWrapped, hfalsy]
  · intro htruthy
    simp [runWrapped, htruthy]
  · simp [runWrapped, defaultHook, JSVal.truthy]

/-- Witness for C5: an always-false validator routes a concrete invocation
to the rejected callback (returning `vNull` here) with the handler never
run; an always-true one runs the handler. -/
theorem claim_C5_hook_pipeline_witness :
    ((runWrapped ⟨fun _ _ _ _ _ => .vBool false, fun _ _ _ _ _ => .vNull⟩ .vNull
        (str "Query") (str "fooGetPage") (fun _ _ _ => .vStr (str "ran")) .vNull
        ⟨none, none, []⟩ []).result = .vNull ∧
      (runWrapped ⟨fun _ _ _ _ _ => .vBool false, fun _ _ _ _ _ => .vNull⟩ .vNull
        (str "Query") (str "fooGetPage") (fun _ _ _ => .vStr (str "ran")) .vNull
        ⟨none, none, []⟩ []).handlerRan = false) ∧
    ((runWrapped defaultHook .vNull (str "Query") (str "fooGetPage")
        (fun _ _ _ => .vStr (str "ran")) .vNull ⟨none, none, []⟩ []).result =
        .vStr (str "ran") ∧
      (runWrapped defaultHook .vNull (str "Query") (str "fooGetPage")
        (fun _ _ _ => .vStr (str "ran")) .vNull ⟨none, none, []⟩ []).handlerRan = true) :=
  have h := claim_C5_hook_pipeline
    ⟨fun _ _ _ _ _ => .vBool false, fun _ _ _ _ _ => .vNull⟩ .vNull
    (str "Query") (str "fooGetPage") (fun _ _ _ => .vStr (str "ran")) .vNull
    ⟨none, none, []⟩ []
  have hd := claim_C5_hook_pipeline defaultHook .vNull
    (str "Query") (str "fooGetPage") (fun _ _ _ => .vStr (str "ran")) .vNull
    ⟨none, none, []⟩ []
  ⟨h.1 (by decide), hd.2.2⟩

/-- C10: every resolver wrapped by `add` mutates the caller-supplied
context object in place, setting `context.ioc` to the `{resolver, db}`
pair before the validator runs — the validator sees exactly the caller's
object with `ioc` set — and the wrapper itself leaves every other property
of the caller's context unchanged. -/
theorem claim_C10_context_mutation (hook : Hook) (db : JSVal) (ns name : Str)
    (cb : JSVal → Args → Ctx → JSVal) (root : JSVal) (args : Args) (context : Ctx) :
    (runWrapped hook db ns name cb root args context).validatorCtx =
      context.insert (str "ioc") (CtxVal.iocOf db) ∧
    (runWrapped hook db ns name cb root args context).finalCtx =
      context.insert (str "ioc") (CtxVal.iocOf db) ∧
    (runWrapped hook db ns name cb root args context).finalCtx.find? (str "ioc") =
      some (CtxVal.iocOf db) ∧
    (∀ k, k ≠ str "ioc" →
      (runWrapped hook db ns name cb root args context).finalCtx.find? k =
        context.find? k) := by
  have hval : (runWrapped hook db ns name cb root args context).validatorCtx =
      context.insert (str "ioc") (CtxVal.iocOf db) := by
    simp only [runWrapped]
    split <;> rfl
  have hfin : (runWrapped hook db ns name cb root args context).finalCtx =
      context.insert (str "ioc") (CtxVal.iocOf db) := by
    simp only [runWrapped]
    split <;> rfl
  refine ⟨hval, hfin, ?_, ?_⟩
  · rw [hfin]
    exact OMap.find?_insert_self context _ _
  · intro k hk
    rw [hfin]
    exact OMap.find?_insert_ne context _ k _ (Ne.symm hk)

/-- Witness for C10: a concrete caller context keeps its `user` property
and gains `ioc`. -/
theorem claim_C10_context_mutation_witness :
    (runWrapped defaultHook (JSVal.vStr (str "db")) (str "Query") (str "fooGetPage")
      (fun _ _ _ => .vNull) .vNull ⟨none, none, []⟩
      [(str "user", CtxVal.js (.vStr (str "alice")))]).finalCtx.find? (str "ioc") =
      some (CtxVal.iocOf (JSVal.vStr (str "db"))) ∧
    (runWrapped defaultHook (JSVal.vStr (str "db")) (str "Query") (str "fooGetPage")
      (fun _ _ _ => .vNull) .vNull ⟨none, none, []⟩
      [(str "user", CtxVal.js (.vStr (str "alice")))]).finalCtx.find? (str "user") =
      some (CtxVal.js (.vStr (str "alice"))) :=
  have h := claim_C10_context_mutation defaultHook (JSVal.vStr (str "db"))
    (str "Query") (str "fooGetPage") (fun _ _ _ => .vNull) .vNull ⟨none, none, []⟩
    [(str "user", CtxVal.js (.vStr (str "alice")))]
  ⟨h.2.2.1, by rw [h.2.2.2 (str "user") (by decide)]; decide⟩

/-- C1 (code bug): the Schema Compiler adds the Mutation field
`camelCase(T) ++ "PutItem"`, but `addDefaultFieldsResolvers` registers the
resolver under `camelCase(T) ++ "Put"` — the two names differ for every
table, so the generated schema's mutation field has no matching resolver;
evaluated at table `foo`. -/
theorem claim_C1_mutation_names :
    (∀ c : Str, c ++ str "PutItem" ≠ c ++ str "Put") ∧
    ((mapDbTableToGraphqlMutation emptySchema (str "foo")).type.find?
        (str "Mutation")).bind
      (fun mm => mm.find? (toCamelCase (str "foo") ++ str "PutItem")) =
      some ⟨str "FooPutItem", .named (str "Foo"),
        [(str "_debug", str "Boolean"), (str "input", str "FooInput!")]⟩ ∧
    resolverAt (addDefaultFieldsResolvers [] (str "foo")) (str "Mutation")
      (toCamelCase (str "foo") ++ str "Put") = some (.putItemH (str "foo")) ∧
    resolverAt (addDefaultFieldsResolvers [] (str "foo")) (str "Mutation")
      (toCamelCase (str "foo") ++ str "PutItem") = none := by
  refine ⟨?_, by decide, by decide, by decide⟩
  intro c h
  have hlen := congrArg List.length h
  rw [List.length_append, List.length_append] at hlen
  have h7 : (str "PutItem").length = 7 := rfl
  have h3 : (str "Put").length = 3 := rfl
  rw [h7, h3] at hlen
  omega

/-- Witness for C1 at the concrete type name `Foo`. -/
theorem claim_C1_mutation_names_witness :
    str "Foo" ++ str "PutItem" ≠ str "Foo" ++ str "Put" :=
  claim_C1_mutation_names.1 (str "Foo")

/-- C7: a per-column mapping failure is recovered locally — the offending
column is omitted from the generated type and (by an independent skip)
from the generated input, every other column is still processed into both,
and the table pass completes, producing exactly the generated field
lists. -/
theorem claim_C7_column_failure (m : ColumnTypeMapper) (tm : TableMeta) (s : Schema)
    (t : Str)
    (hfresh : s.type.find? (toCamelCase t) = none)
    (hifresh : s.input.find? (getInputName t) = none)
    (hnodupK : ((genTypeFields m tm).map Prod.fst).Nodup)
    (hnodupI : ((genInputFields m tm).map Prod.fst).Nodup)
    (hnodupC : (tm.columns.map Prod.fst).Nodup)
    (hforeignNe : ∀ q ∈ tm.columns, ∀ fr, q.2.foreign = some fr →
      ∀ p ∈ tm.columns, q.1 ++ str "_" ++ fr.tablename ≠ p.1)
    (hrevNe : ∀ r ∈ tm.reverse, ∀ p ∈ tm.columns, r.ftablename ≠ p.1) :
    (mapDbTableToGraphqlType m tm s t).type.find? (toCamelCase t) =
      some (genTypeFields m tm) ∧
    (mapDbTableToGraphqlInput m tm s t).input.find? (getInputName t) =
      some (genInputFields m tm) ∧
    (∀ p ∈ tm.columns, m p.1 p.2 = none →
      (genTypeFields m tm).find? p.1 = none ∧ (genInputFields m tm).find? p.1 = none) ∧
    (∀ p ∈ tm.columns, ∀ g, m p.1 p.2 = some g →
      (genTypeFields m tm).find? p.1 = some ⟨p.1, .named g, OMap.empty⟩ ∧
      (genInputFields m tm).find? p.1 = some g) := by
  refine ⟨mapType_find_camel m tm s t hfresh hnodupK,
    mapInput_find_name m tm s t hifresh hnodupI, ?_, ?_⟩
  · intro p hp hnone
    constructor
    · apply OMap.find?_not_mem
      intro hmem
      unfold genTypeFields at hmem
      rw [OMap.keyList_append, OMap.keyList_append] at hmem
      rcases List.mem_append.mp hmem with hm | hm
      · rcases List.mem_append.mp hm with hms | hmf
        · unfold OMap.keyList at hms
          rw [List.map_filterMap] at hms
          obtain ⟨q, hq, hgen⟩ := List.mem_filterMap.mp hms
          unfold scalarGen at hgen
          rw [Option.map_map] at hgen
          obtain ⟨g, hg, hkey⟩ := Option.map_eq_some'.mp hgen
          have hq1 : q.1 = p.1 := hkey
          have hqp : q.2 = p.2 := by
            have hq' : (p.1, q.2) ∈ tm.columns := by
              rw [← hq1]
              exact (Prod.mk.eta (p := q)) ▸ hq
            exact fst_nodup_eq hnodupC hq' ((Prod.mk.eta (p := p)) ▸ hp)
          rw [hq1, hqp] at hg
          rw [hg] at hnone
          cases hnone
        · unfold OMap.keyList at hmf
          rw [List.map_filterMap] at hmf
          obtain ⟨q, hq, hgen⟩ := List.mem_filterMap.mp hmf
          unfold foreignGen at hgen
          rw [Option.map_map] at hgen
          obtain ⟨fr, hfr, hkey⟩ := Option.map_eq_some'.mp hgen
          exact hforeignNe q hq fr hfr p hp hkey
      · unfold OMap.keyList at hm
        rw [List.map_filterMap] at hm
        obtain ⟨r, hr, hgen⟩ := List.mem_filterMap.mp hm
        unfold reverseGen at hgen
        have hkey : r.ftablename = p.1 := by
          simpa using hgen
        exact hrevNe r hr p hp hkey
    · apply OMap.find?_not_mem
      intro hmem
      unfold genInputFields at hmem
      unfold OMap.keyList at hmem
      rw [List.map_filterMap] at hmem
      obtain ⟨q, hq, hgen⟩ := List.mem_filterMap.mp hmem
      unfold inputGen at hgen
      rw [Option.map_map] at hgen
      obtain ⟨g, hg, hkey⟩ := Option.map_eq_some'.mp hgen
      have hq1 : q.1 = p.1 := hkey
      have hqp : q.2 = p.2 := by
        have hq' : (p.1, q.2) ∈ tm.columns := by
          rw [← hq1]
          exact (Prod.mk.eta (p := q)) ▸ hq
        exact fst_nodup_eq hnodupC hq' ((Prod.mk.eta (p := p)) ▸ hp)
      rw [hq1, hqp] at hg
      rw [hg] at hnone
      cases hnone
  · intro p hp g hg
    constructor
    · have hmemS : (p.1, (⟨p.1, .named g, OMap.empty⟩ : FieldDef)) ∈
          tm.columns.filterMap (scalarGen m) := by
        refine List.mem_filterMap.mpr ⟨p, hp, ?_⟩
        unfold scalarGen
        rw [hg]
        rfl
      unfold genTypeFields
      rw [List.append_assoc]
      apply OMap.find?_append_left
      apply find?_of_mem_nodup
      · unfold genTypeFields at hnodupK
        rw [List.append_assoc, List.map_append] at hnodupK
        exact (List.nodup_append.mp hnodupK).1
      · exact hmemS
    · have hmemS : (p.1, g) ∈ tm.columns.filterMap (inputGen m) := by
        refine List.mem_filterMap.mpr ⟨p, hp, ?_⟩
        unfold inputGen
        rw [hg]
        rfl
      exact find?_of_mem_nodup _ hnodupI hmemS

/-- Witness for C7: in a table `id serial, weird geometry, name boolean`
with a mapper failing on `geometry`, the built type and input omit `weird`
and keep `id` and `name`. -/
theorem claim_C7_column_failure_witness :
    (mapDbTableToGraphqlType demoMapper mixedTable emptySchema (str "t")).type.find?
      (toCamelCase (str "t")) = some (genTypeFields demoMapper mixedTable) ∧
    (genTypeFields demoMapper mixedTable).find? (str "weird") = none ∧
    (genInputFields demoMapper mixedTable).find? (str "weird") = none ∧
    (genTypeFields demoMapper mixedTable).find? (str "id") =
      some ⟨str "id", .named (str "Int"), OMap.empty⟩ ∧
    (genTypeFields demoMapper mixedTable).find? (str "name") =
      some ⟨str "name", .named (str "Boolean"), OMap.empty⟩ ∧
    (genInputFields demoMapper mixedTable).find? (str "name") = some (str "Boolean") :=
  have h := claim_C7_column_failure demoMapper mixedTable emptySchema (str "t")
    rfl rfl (by decide) (by decide) (by decide)
    (by
      intro q hq fr hfr
      simp [mixedTable] at hq
      rcases hq with h | h | h <;> rw [h] at hfr <;> simp at hfr)
    (by
      intro r hr
      simp [mixedTable] at hr)
  ⟨h.1,
   (h.2.2.1 (str "weird", ⟨str "weird", str "geometry", none⟩) (by decide) (by decide)).1,
   (h.2.2.1 (str "weird", ⟨str "weird", str "geometry", none⟩) (by decide) (by decide)).2,
   (h.2.2.2 (str "id", ⟨str "id", str "serial", none⟩) (by decide) (str "Int")
     (by decide)).1,
   (h.2.2.2 (str "name", ⟨str "name", str "boolean", none⟩) (by decide) (str "Boolean")
     (by decide)).1,
   (h.2.2.2 (str "name", ⟨str "name", str "boolean", none⟩) (by decide) (str "Boolean")
     (by decide)).2⟩


theorem selectHead_mem_src {ls : List (List BuildOp)} {op : BuildOp}
    {rest : List BuildOp} {ls' : List (List BuildOp)}
    (h : SelectHead ls op rest ls') : (op :: rest) ∈ ls := by
  induction h with
  | here => exact List.mem_cons_self _ _
  | there _ ih => exact List.mem_cons_of_mem _ ih

theorem selectHead_src_of_mem {ls : List (List BuildOp)} {op : BuildOp}
    {rest : List BuildOp} {ls' : List (List BuildOp)}
    (h : SelectHead ls op rest ls') : ∀ l ∈ ls', l = rest ∨ l ∈ ls := by
  induction h with
  | here =>
    intro l hl
    rcases List.mem_cons.mp hl with he | hm
    · exact Or.inl he
    · exact Or.inr (List.mem_cons_of_mem _ hm)
  | there _ ih =>
    intro l hl
    rcases List.mem_cons.mp hl with he | hm
    · exact Or.inr (he ▸ List.mem_cons_self _ _)
    · rcases ih l hm with he | hm'
      · exact Or.inl he
      · exact Or.inr (List.mem_cons_of_mem _ hm')

theorem selectHead_sched {ls : List (List BuildOp)} {op : BuildOp}
    {rest : List BuildOp} {ls' : List (List BuildOp)}
    (h : SelectHead ls op rest ls') {x : BuildOp} {l : List BuildOp}
    (hl : l ∈ ls) (hx : x ∈ l) : x = op ∨ ∃ l', l' ∈ ls' ∧ x ∈ l' := by
  induction h with
  | here =>
    rcases List.mem_cons.mp hl with he | hm
    · subst he
      rcases List.mem_cons.mp hx with he' | hm'
      · exact Or.inl he'
      · exact Or.inr ⟨_, List.mem_cons_self _ _, hm'⟩
    · exact Or.inr ⟨l, List.mem_cons_of_mem _ hm, hx⟩
  | there _ ih =>
    rcases List.mem_cons.mp hl with he | hm
    · exact Or.inr ⟨l, he ▸ List.mem_cons_self _ _, hx⟩
    · rcases ih hm with he | ⟨l', hl', hx'⟩
      · exact Or.inl he
      · exact Or.inr ⟨l', List.mem_cons_of_mem _ hl', hx'⟩

/-- Every op of every pending continuation appears in a complete
    schedule. -/
theorem interleave_sched {ls : List (List BuildOp)} {ops : List BuildOp}
    (h : Interleaving ls ops) : ∀ l ∈ ls, ∀ x ∈ l, x ∈ ops := by
  induction h with
  | done hall =>
    intro l hl x hx
    rw [hall l hl] at hx
    exact absurd hx (List.not_mem_nil x)
  | step hsel _ ih =>
    intro l hl x hx
    rcases selectHead_sched hsel hl hx with he | ⟨l', hl', hx'⟩
    · exact he ▸ List.mem_cons_self _ _
    · exact List.mem_cons_of_mem _ (ih l' hl' x hx')

/-- Every op of a schedule comes from one of the pending continuations. -/
theorem interleave_src {ls : List (List BuildOp)} {ops : List BuildOp}
    (h : Interleaving ls ops) : ∀ x ∈ ops, ∃ l ∈ ls, x ∈ l := by
  induction h with
  | done _ =>
    intro x hx
    exact absurd hx (List.not_mem_nil x)
  | step hsel _ ih =>
    intro x hx
    rcases List.mem_cons.mp hx with he | hm
    · exact ⟨_, selectHead_mem_src hsel, he ▸ List.mem_cons_self _ _⟩
    · obtain ⟨l', hl', hx'⟩ := ih x hm
      rcases selectHead_src_of_mem hsel l' hl' with he | hm'
      · subst he
        exact ⟨_, selectHead_mem_src hsel, List.mem_cons_of_mem _ hx'⟩
      · exact ⟨l', hm', hx'⟩

theorem selectHead_filter_pos {P : BuildOp → Bool} {ls : List (List BuildOp)}
    {op : BuildOp} {rest : List BuildOp} {ls' : List (List BuildOp)}
    (h : SelectHead ls op rest ls') (hp : P op = true) :
    SelectHead (ls.map (List.filter P)) op (rest.filter P)
      (ls'.map (List.filter P)) := by
  induction h with
  | here =>
    rw [List.map_cons, List.map_cons, List.filter_cons_of_pos hp]
    exact SelectHead.here
  | there _ ih =>
    rw [List.map_cons, List.map_cons]
    exact SelectHead.there (ih hp)

theorem selectHead_filter_neg {P : BuildOp → Bool} {ls : List (List BuildOp)}
    {op : BuildOp} {rest : List BuildOp} {ls' : List (List BuildOp)}
    (h : SelectHead ls op rest ls') (hp : P op = false) :
    ls.map (List.filter P) = ls'.map (List.filter P) := by
  induction h with
  | here =>
    rw [List.map_cons, List.map_cons, List.filter_cons_of_neg (by simp [hp])]
  | there _ ih =>
    rw [List.map_cons, List.map_cons, ih hp]

/-- Restricting a schedule to ops satisfying `P` yields a schedule of the
    restricted continuations. -/
theorem interleave_filter {P : BuildOp → Bool} {ls : List (List BuildOp)}
    {ops : List BuildOp} (h : Interleaving ls ops) :
    Interleaving (ls.map (List.filter P)) (ops.filter P) := by
  induction h with
  | done hall =>
    refine Interleaving.done ?_
    intro l hl
    obtain ⟨l0, hl0, rfl⟩ := List.mem_map.mp hl
    rw [hall l0 hl0]
    rfl
  | step hsel _ ih =>
    rename_i op rest ls' ops' _
    cases hp : P op with
    | true =>
      rw [List.filter_cons_of_pos hp]
      exact Interleaving.step (selectHead_filter_pos hsel hp) ih
    | false =>
      rw [List.filter_cons_of_neg (by simp [hp]), selectHead_filter_neg hsel hp]
      exact ih

theorem selectHead_of_nils {la lb : List (List BuildOp)} {l0 : List BuildOp}
    {op : BuildOp} {rest : List BuildOp} {ls' : List (List BuildOp)}
    (h : SelectHead (la ++ l0 :: lb) op rest ls')
    (ha : ∀ l ∈ la, l = []) (hb : ∀ l ∈ lb, l = []) :
    l0 = op :: rest ∧ ls' = la ++ rest :: lb := by
  induction la generalizing ls' with
  | nil =>
    cases h with
    | here => exact ⟨rfl, rfl⟩
    | there h' =>
      have hc := hb _ (selectHead_mem_src h')
      simp at hc
  | cons a la ih =>
    have ha0 : a = [] := ha a (List.mem_cons_self a la)
    subst ha0
    cases h with
    | there h' =>
      obtain ⟨h1, h2⟩ := ih h' (fun l hl => ha l (List.mem_cons_of_mem _ hl))
      exact ⟨h1, by rw [h2]; rfl⟩

/-- A schedule of continuations that are all empty except one is that
    continuation itself. -/
theorem interleave_of_nils {la lb : List (List BuildOp)} {l0 : List BuildOp}
    {ops : List BuildOp} (h : Interleaving (la ++ l0 :: lb) ops)
    (ha : ∀ l ∈ la, l = []) (hb : ∀ l ∈ lb, l = []) : ops = l0 := by
  generalize hls : la ++ l0 :: lb = ls at h
  induction h generalizing la l0 lb with
  | done hall =>
    subst hls
    exact (hall l0 (List.mem_append_right _ (List.mem_cons_self _ _))).symm
  | step hsel _ ih =>
    subst hls
    obtain ⟨h1, h2⟩ := selectHead_of_nils hsel ha hb
    subst h1
    rw [ih ha hb h2.symm]

/-- One op appends at most its own type key to the type-key list. -/
theorem applyOp_keyList (s : Schema) (op : BuildOp) :
    ∃ seg, OMap.keyList (applyOp s op).type = OMap.keyList s.type ++ seg ∧
      ∀ k ∈ seg, ¬ k ∈ OMap.keyList s.type ∧ opTypeKey op = some k := by
  cases op with
  | ensureTypeKey k =>
    by_cases h : (s.type.find? k).isSome
    · refine ⟨[], ?_, by simp⟩
      show OMap.keyList (ensureType s k).type = _
      rw [ensureType_present s k h]
      simp
    · have hnone : s.type.find? k = none := by
        cases hf : s.type.find? k with
        | none => rfl
        | some v => rw [hf] at h; simp at h
      refine ⟨[k], ?_, ?_⟩
      · exact ensureType_keyList_absent s k hnone
      · intro k' hk'
        rw [List.mem_singleton] at hk'
        rw [hk']
        exact ⟨OMap.not_mem_of_find?_none s.type k hnone, rfl⟩
  | setTypeF k f fd =>
    by_cases h : k ∈ OMap.keyList s.type
    · refine ⟨[], ?_, by simp⟩
      show OMap.keyList (omap2Set s.type k f fd) = _
      rw [omap2Set_keyList_mem s.type k f fd h]
      simp
    · refine ⟨[k], ?_, ?_⟩
      · show OMap.keyList (omap2Set s.type k f fd) = _
        exact OMap.keyList_insert_fresh s.type k _ h
      · intro k' hk'
        rw [List.mem_singleton] at hk'
        rw [hk']
        exact ⟨h, rfl⟩
  | setPageKey k fields =>
    by_cases h : k ∈ OMap.keyList s.type
    · refine ⟨[], ?_, by simp⟩
      show OMap.keyList (s.type.insert k fields) = _
      rw [OMap.keyList_insert_mem s.type k fields h]
      simp
    · refine ⟨[k], ?_, ?_⟩
      · exact OMap.keyList_insert_fresh s.type k fields h
      · intro k' hk'
        rw [List.mem_singleton] at hk'
        rw [hk']
        exact ⟨h, rfl⟩
  | ensureInputKey k =>
    refine ⟨[], ?_, by simp⟩
    simp only [applyOp]
    split <;> simp
  | setInputF k f ty =>
    refine ⟨[], ?_, by simp⟩
    simp [applyOp]

/-- A schedule appends only type keys written by its own ops. -/
theorem applyOps_keyList (s : Schema) (ops : List BuildOp) :
    ∃ rest, OMap.keyList (applyOps s ops).type = OMap.keyList s.type ++ rest ∧
      ∀ k ∈ rest, ¬ k ∈ OMap.keyList s.type ∧ ∃ op ∈ ops, opTypeKey op = some k := by
  induction ops generalizing s with
  | nil => exact ⟨[], by simp [applyOps], by simp⟩
  | cons op ops ih =>
    obtain ⟨seg, hseg, hsegp⟩ := applyOp_keyList s op
    obtain ⟨rest, hrest, hrestp⟩ := ih (applyOp s op)
    refine ⟨seg ++ rest, ?_, ?_⟩
    · show OMap.keyList (applyOps (applyOp s op) ops).type = _
      rw [hrest, hseg, List.append_assoc]
    · intro k hk
      rcases List.mem_append.mp hk with hm | hm
      · obtain ⟨hnot, hop⟩ := hsegp k hm
        exact ⟨hnot, op, List.mem_cons_self op ops, hop⟩
      · obtain ⟨hnot, op', hop', hkey⟩ := hrestp k hm
        refine ⟨?_, op', List.mem_cons_of_mem op hop', hkey⟩
        intro hmem
        exact hnot (by rw [hseg]; exact List.mem_append_left seg hmem)

theorem applyOps_mem_keyList (s : Schema) (ops : List BuildOp) (k : Str)
    (h : k ∈ OMap.keyList s.type) : k ∈ OMap.keyList (applyOps s ops).type := by
  obtain ⟨rest, hrest, _⟩ := applyOps_keyList s ops
  rw [hrest]
  exact List.mem_append_left rest h

/-- A scheduled `setPageKey` guarantees its key in the final key list. -/
theorem setPage_mem_applyOps (s : Schema) (ops : List BuildOp) (k : Str)
    (fields : OMap FieldDef) (h : BuildOp.setPageKey k fields ∈ ops) :
    k ∈ OMap.keyList (applyOps s ops).type := by
  induction ops generalizing s with
  | nil => exact absurd h (List.not_mem_nil _)
  | cons op ops ih =>
    rcases List.mem_cons.mp h with he | hm
    · subst he
      show k ∈ OMap.keyList (applyOps (applyOp s _) ops).type
      refine applyOps_mem_keyList _ ops k ?_
      show k ∈ OMap.keyList (s.type.insert k fields)
      refine OMap.find?_mem_keyList _ k ?_
      rw [OMap.find?_insert_self]
      rfl
    · exact ih (applyOp s op) hm

/-- One step of the projection of the schema onto a single type key. -/
theorem applyOp_find_type (s : Schema) (op : BuildOp) (k : Str) :
    (applyOp s op).type.find? k = typeProj k (s.type.find? k) op := by
  cases op with
  | ensureTypeKey k' =>
    by_cases hk : k' = k
    · subst hk
      simp only [typeProj, if_pos rfl]
      cases hf : s.type.find? k' with
      | none =>
        show (ensureType s k').type.find? k' = _
        rw [ensureType_absent_find s k' hf]
        rfl
      | some v =>
        show (ensureType s k').type.find? k' = _
        rw [ensureType_present s k' (by rw [hf]; rfl), hf]
        rfl
    · show (ensureType s k').type.find? k = _
      rw [ensureType_find_ne s k' k (fun he => hk he.symm)]
      simp [typeProj, hk]
  | setTypeF k' f fd =>
    by_cases hk : k' = k
    · subst hk
      show (omap2Set s.type k' f fd).find? k' = _
      rw [omap2Set_find_self]
      simp [typeProj]
    · show (omap2Set s.type k' f fd).find? k = _
      rw [omap2Set_find_ne s.type k' k f fd (fun he => hk he.symm)]
      simp [typeProj, hk]
  | setPageKey k' fields =>
    by_cases hk : k' = k
    · subst hk
      show (s.type.insert k' fields).find? k' = _
      rw [OMap.find?_insert_self]
      simp [typeProj]
    · show (s.type.insert k' fields).find? k = _
      rw [OMap.find?_insert_ne s.type k' k fields hk]
      simp [typeProj, hk]
  | ensureInputKey k' =>
    simp only [applyOp, typeProj]
    split <;> rfl
  | setInputF k' f ty =>
    simp [applyOp, typeProj]

/-- The value at one type key after a schedule is its projected fold. -/
theorem applyOps_find_type (s : Schema) (ops : List BuildOp) (k : Str) :
    (applyOps s ops).type.find? k = typeProjFold k (s.type.find? k) ops := by
  induction ops generalizing s with
  | nil => rfl
  | cons op ops ih =>
    have h := ih (applyOp s op)
    rw [applyOp_find_type] at h
    exact h

theorem typeProj_untouched {k : Str} {op : BuildOp} {v : Option (OMap FieldDef)}
    (h : touchesType k op = false) : typeProj k v op = v := by
  cases op with
  | ensureTypeKey k' =>
    have hk : ¬ k' = k := by simpa [touchesType, opTypeKey] using h
    simp [typeProj, hk]
  | setTypeF k' f fd =>
    have hk : ¬ k' = k := by simpa [touchesType, opTypeKey] using h
    simp [typeProj, hk]
  | setPageKey k' fields =>
    have hk : ¬ k' = k := by simpa [touchesType, opTypeKey] using h
    simp [typeProj, hk]
  | ensureInputKey k' => rfl
  | setInputF k' f ty => rfl

/-- Ops not touching key `k` drop out of the projected fold. -/
theorem typeProjFold_filter (k : Str) (v : Option (OMap FieldDef)) (ops : List BuildOp) :
    typeProjFold k v ops = typeProjFold k v (ops.filter (touchesType k)) := by
  induction ops generalizing v with
  | nil => rfl
  | cons op ops ih =>
    cases hp : touchesType k op with
    | true =>
      rw [List.filter_cons_of_pos hp]
      show typeProjFold k (typeProj k v op) ops = _
      exact ih _
    | false =>
      rw [List.filter_cons_of_neg (by simp [hp])]
      show typeProjFold k (typeProj k v op) ops = _
      rw [typeProj_untouched hp]
      exact ih v

/-- Folding a run of `setTypeF k · ·` ops is the inner-object fold. -/
theorem typeProjFold_setOps (k : Str) (fields inner : OMap FieldDef) :
    typeProjFold k (some inner) (setTypeOpsOf k fields) =
      some (innerFold (fun kv => some kv) fields inner) := by
  induction fields generalizing inner with
  | nil => rfl
  | cons kv fields ih =>
    show typeProjFold k (typeProj k (some inner) (.setTypeF k kv.1 kv.2))
      (setTypeOpsOf k fields) = _
    rw [show typeProj k (some inner) (.setTypeF k kv.1 kv.2) =
      some (inner.insert kv.1 kv.2) from by simp [typeProj]]
    exact ih _

theorem filterMap_someFst (pairs : OMap FieldDef) :
    pairs.filterMap
      (fun x => ((fun kv : Str × FieldDef => some kv) x).map Prod.fst) =
      pairs.map Prod.fst := by
  induction pairs with
  | nil => rfl
  | cons p ps ih =>
    simp [List.filterMap_cons]
    simpa using ih

theorem filterMap_someId (pairs : OMap FieldDef) :
    pairs.filterMap (fun kv : Str × FieldDef => some kv) = pairs := by
  induction pairs with
  | nil => rfl
  | cons p ps ih => simp [List.filterMap_cons, ih]

/-- Inserting nodup-keyed fields into the empty object reproduces them. -/
theorem innerFold_id (pairs : OMap FieldDef)
    (hnodup : (pairs.map Prod.fst).Nodup) :
    innerFold (fun kv => some kv) pairs OMap.empty = pairs := by
  have hfresh : ∀ x ∈ pairs, ∀ kv, (fun kv : Str × FieldDef => some kv) x = some kv →
      ¬ kv.1 ∈ OMap.keyList (OMap.empty (α := FieldDef)) := by
    intro x hx kv hkv
    simp [OMap.keyList, OMap.empty]
  have hn : (pairs.filterMap
      (fun x => ((fun kv : Str × FieldDef => some kv) x).map Prod.fst)).Nodup := by
    rw [filterMap_someFst]
    exact hnodup
  have h := innerFold_append (fun kv => some kv) pairs OMap.empty hfresh hn
  rw [filterMap_someId] at h
  simpa [OMap.empty] using h

/-- The sync phase never changes an already present type entry. -/
theorem syncPhase_find_some (db : DbSchema) (s : Schema) (k : Str)
    (v : OMap FieldDef) (h : s.type.find? k = some v) :
    (buildSchemaSyncPhase db s).type.find? k = some v := by
  induction db generalizing s with
  | nil => exact h
  | cons p db ih =>
    show (buildSchemaSyncPhase db (ensureType s (toCamelCase p.1))).type.find? k = some v
    refine ih _ ?_
    by_cases hk : toCamelCase p.1 = k
    · subst hk
      rw [ensureType_present s _ (by rw [h]; rfl)]
      exact h
    · rw [ensureType_find_ne s _ k (fun he => hk he.symm)]
      exact h

/-- The sync phase leaves each table's type key bound to the empty
    object. -/
theorem syncPhase_find_camel (db : DbSchema) (s : Schema) (p : Str × TableMeta)
    (hp : p ∈ db) (hnone : s.type.find? (toCamelCase p.1) = none) :
    (buildSchemaSyncPhase db s).type.find? (toCamelCase p.1) = some OMap.empty := by
  induction db generalizing s with
  | nil => exact absurd hp (List.not_mem_nil p)
  | cons q db ih =>
    show (buildSchemaSyncPhase db (ensureType s (toCamelCase q.1))).type.find? _ = _
    by_cases hk : toCamelCase q.1 = toCamelCase p.1
    · refine syncPhase_find_some db _ _ _ ?_
      rw [hk]
      exact ensureType_absent_find s _ hnone
    · rcases List.mem_cons.mp hp with he | hm
      · exact absurd (by rw [he]) hk
      · refine ih _ hm ?_
        rw [ensureType_find_ne s _ _ (fun he => hk he.symm)]
        exact hnone

/-- The sync phase appends the bare table type keys in table order. -/
theorem syncPhase_keyList (db : DbSchema) (s : Schema)
    (hfresh : ∀ p ∈ db, s.type.find? (toCamelCase p.1) = none)
    (hnodup : (db.map (fun p => toCamelCase p.1)).Nodup) :
    OMap.keyList (buildSchemaSyncPhase db s).type =
      OMap.keyList s.type ++ db.map (fun p => toCamelCase p.1) := by
  induction db generalizing s with
  | nil => simp [buildSchemaSyncPhase]
  | cons p db ih =>
    have hfp : s.type.find? (toCamelCase p.1) = none :=
      hfresh p (List.mem_cons_self p db)
    rw [List.map_cons] at hnodup
    obtain ⟨hnotin, hnd⟩ := List.nodup_cons.mp hnodup
    show OMap.keyList
      (buildSchemaSyncPhase db (ensureType s (toCamelCase p.1))).type = _
    have hf' : ∀ q ∈ db,
        (ensureType s (toCamelCase p.1)).type.find? (toCamelCase q.1) = none := by
      intro q hq
      rw [ensureType_find_ne s _ _ ?hne]
      · exact hfresh q (List.mem_cons_of_mem p hq)
      · intro he
        have hmem : toCamelCase q.1 ∈ db.map (fun r => toCamelCase r.1) :=
          List.mem_map.mpr ⟨q, hq, rfl⟩
        rw [he] at hmem
        exact hnotin hmem
    rw [ih _ hf' hnd, ensureType_keyList_absent s _ hfp]
    simp

/-- Every op of a table's type continuation writes the table's type key
    or its `Page` key. -/
theorem typeContOps_key {m : ColumnTypeMapper} {t : Str} {tm : TableMeta}
    {op : BuildOp} (h : op ∈ typeContOps m t tm) :
    opTypeKey op = some (toCamelCase t) ∨
      opTypeKey op = some (toCamelCase t ++ str "Page") := by
  unfold typeContOps setTypeOpsOf at h
  rcases List.mem_append.mp h with h | h
  · rcases List.mem_append.mp h with h | h
    · rcases List.mem_append.mp h with h | h
      · obtain ⟨kv, _, rfl⟩ := List.mem_map.mp h
        exact Or.inl rfl
      · obtain ⟨kv, _, rfl⟩ := List.mem_map.mp h
        exact Or.inl rfl
    · obtain ⟨kv, _, rfl⟩ := List.mem_map.mp h
      exact Or.inl rfl
  · rw [List.mem_singleton] at h
    subst h
    exact Or.inr rfl

theorem queryContOps_key {t : Str} {op : BuildOp} (h : op ∈ queryContOps t) :
    opTypeKey op = some (str "Query") := by
  rcases List.mem_cons.mp h with he | h
  · subst he; rfl
  · rw [List.mem_singleton] at h
    subst h; rfl

theorem firstOfContOps_key {t : Str} {op : BuildOp} (h : op ∈ firstOfContOps t) :
    opTypeKey op = some (str "Query") := by
  rcases List.mem_cons.mp h with he | h
  · subst he; rfl
  · rw [List.mem_singleton] at h
    subst h; rfl

theorem mutationContOps_key {t : Str} {op : BuildOp} (h : op ∈ mutationContOps t) :
    opTypeKey op = some (str "Mutation") := by
  rcases List.mem_cons.mp h with he | h
  · subst he; rfl
  · rw [List.mem_singleton] at h
    subst h; rfl

theorem inputContOps_key {m : ColumnTypeMapper} {t : Str} {tm : TableMeta}
    {op : BuildOp} (h : op ∈ inputContOps m t tm) : opTypeKey op = none := by
  rcases List.mem_cons.mp h with he | h
  · subst he; rfl
  · obtain ⟨kv, _, rfl⟩ := List.mem_map.mp h
    rfl

/-- Any type key a pending continuation writes is `Query`, `Mutation`, or
    some table's type or `Page` key. -/
theorem allContOps_key {m : ColumnTypeMapper} {db : DbSchema}
    {l : List BuildOp} {op : BuildOp} {k : Str} (hl : l ∈ allContOps m db)
    (hop : op ∈ l) (hk : opTypeKey op = some k) :
    k = str "Query" ∨ k = str "Mutation" ∨
      ∃ p ∈ db, k = toCamelCase p.1 ∨ k = toCamelCase p.1 ++ str "Page" := by
  induction db with
  | nil => exact absurd hl (List.not_mem_nil l)
  | cons p db ih =>
    simp only [allContOps, tableContOps] at hl
    rcases List.mem_append.mp hl with h | h
    · simp only [List.mem_cons, List.mem_singleton] at h
      rcases h with h | h | h | h | h | h
      · rw [h] at hop
        rcases typeContOps_key hop with hc | hc
        · rw [hk] at hc
          exact Or.inr (Or.inr ⟨p, List.mem_cons_self p db,
            Or.inl (Option.some.inj hc)⟩)
        · rw [hk] at hc
          exact Or.inr (Or.inr ⟨p, List.mem_cons_self p db,
            Or.inr (Option.some.inj hc)⟩)
      · rw [h] at hop
        have hq := queryContOps_key hop
        rw [hk] at hq
        exact Or.inl (Option.some.inj hq)
      · rw [h] at hop
        have hq := firstOfContOps_key hop
        rw [hk] at hq
        exact Or.inl (Option.some.inj hq)
      · rw [h] at hop
        have hq := mutationContOps_key hop
        rw [hk] at hq
        exact Or.inr (Or.inl (Option.some.inj hq))
      · rw [h] at hop
        have hq := inputContOps_key hop
        rw [hk] at hq
        exact absurd hq (by simp)
      · exact absurd h (List.not_mem_nil l)
    · rcases ih h with hQ | hM | ⟨q, hq, hcase⟩
      · exact Or.inl hQ
      · exact Or.inr (Or.inl hM)
      · exact Or.inr (Or.inr ⟨q, List.mem_cons_of_mem p hq, hcase⟩)

/-- Distinct type keys force distinct camel-cased table names. -/
theorem camels_nodup {db : DbSchema} (h : (typeKeysOf db).Nodup) :
    (db.map (fun p => toCamelCase p.1)).Nodup := by
  induction db with
  | nil => simp
  | cons p db ih =>
    simp only [typeKeysOf] at h
    obtain ⟨hc, h2⟩ := List.nodup_cons.mp h
    obtain ⟨hpg, h3⟩ := List.nodup_cons.mp h2
    rw [List.map_cons]
    refine List.nodup_cons.mpr ⟨?_, ih h3⟩
    intro hmem
    obtain ⟨q, hq, he⟩ := List.mem_map.mp hmem
    have hmem' := camel_mem_typeKeysOf hq
    rw [he] at hmem'
    exact hc (List.mem_cons_of_mem _ hmem')

/-- Distinct type keys force every `Page` key distinct from every table
    type key. -/
theorem page_ne_camel {db : DbSchema} (h : (typeKeysOf db).Nodup) :
    ∀ q ∈ db, ∀ p ∈ db, toCamelCase q.1 ++ str "Page" ≠ toCamelCase p.1 := by
  induction db with
  | nil =>
    intro q hq
    exact absurd hq (List.not_mem_nil q)
  | cons r db ih =>
    simp only [typeKeysOf] at h
    obtain ⟨hc, h2⟩ := List.nodup_cons.mp h
    obtain ⟨hpg, h3⟩ := List.nodup_cons.mp h2
    intro q hq p hp
    rcases List.mem_cons.mp hq with heq | hq' <;>
      rcases List.mem_cons.mp hp with hep | hp'
    · subst heq
      subst hep
      exact append_ne_self _ _ (by decide)
    · subst heq
      intro he
      have hmem := camel_mem_typeKeysOf hp'
      rw [← he] at hmem
      exact hpg hmem
    · subst hep
      intro he
      have hmem := page_mem_typeKeysOf hq'
      rw [he] at hmem
      exact hc (List.mem_cons_of_mem _ hmem)
    · exact ih h3 q hq' p hp'

theorem allContOps_append (m : ColumnTypeMapper) (d1 d2 : DbSchema) :
    allContOps m (d1 ++ d2) = allContOps m d1 ++ allContOps m d2 := by
  induction d1 with
  | nil => rfl
  | cons p d1 ih =>
    show tableContOps m p ++ allContOps m (d1 ++ d2) = _
    rw [ih, ← List.append_assoc]
    rfl

/-- Each table's type continuation is among the pending continuations. -/
theorem typeContOps_mem {m : ColumnTypeMapper} {db : DbSchema}
    {p : Str × TableMeta} (h : p ∈ db) :
    typeContOps m p.1 p.2 ∈ allContOps m db := by
  induction db with
  | nil => exact absurd h (List.not_mem_nil p)
  | cons q db ih =>
    show _ ∈ tableContOps m q ++ allContOps m db
    rcases List.mem_cons.mp h with he | hm
    · subst he
      exact List.mem_append_left _ (List.mem_cons_self _ _)
    · exact List.mem_append_right _ (ih hm)

theorem filter_touches_eq_nil {k : Str} {l : List BuildOp}
    (h : ∀ op ∈ l, touchesType k op = false) : l.filter (touchesType k) = [] := by
  induction l with
  | nil => rfl
  | cons op l ih =>
    rw [List.filter_cons_of_neg (by simp [h op (List.mem_cons_self op l)])]
    exact ih (fun x hx => h x (List.mem_cons_of_mem op hx))

theorem filter_setTypeOps (k : Str) (fields : OMap FieldDef) :
    (setTypeOpsOf k fields).filter (touchesType k) = setTypeOpsOf k fields := by
  induction fields with
  | nil => rfl
  | cons kv fields ih =>
    show List.filter _ (BuildOp.setTypeF k kv.1 kv.2 :: setTypeOpsOf k fields) = _
    rw [List.filter_cons_of_pos (by simp [touchesType, opTypeKey]), ih]
    rfl

/-- Restricted to its own type key, a table's type continuation is the
    field-assignment run for exactly the generated fields. -/
theorem typeContOps_filter_self (m : ColumnTypeMapper) (t : Str) (tm : TableMeta) :
    (typeContOps m t tm).filter (touchesType (toCamelCase t)) =
      setTypeOpsOf (toCamelCase t) (genTypeFields m tm) := by
  have hne : toCamelCase t ++ str "Page" ≠ toCamelCase t :=
    append_ne_self _ _ (by decide)
  unfold typeContOps
  rw [List.filter_append, List.filter_append, List.filter_append,
    filter_setTypeOps, filter_setTypeOps, filter_setTypeOps,
    List.filter_cons_of_neg (by simp [touchesType, opTypeKey, hne]),
    List.filter_nil, List.append_nil]
  simp [genTypeFields, setTypeOpsOf]

theorem interleave_cons_nil {ls : List (List BuildOp)} {ops : List BuildOp}
    (h : Interleaving ls ops) : Interleaving ([] :: ls) ops := by
  induction h with
  | done hall =>
    refine Interleaving.done ?_
    intro l hl
    rcases List.mem_cons.mp hl with he | hm
    · exact he
    · exact hall l hm
  | step hsel _ ih => exact Interleaving.step (SelectHead.there hsel) ih

theorem interleave_cons_prefix {l : List BuildOp} {ls : List (List BuildOp)}
    {ops : List BuildOp} (h : Interleaving ls ops) :
    Interleaving (l :: ls) (l ++ ops) := by
  induction l with
  | nil => exact interleave_cons_nil h
  | cons op l ihl => exact Interleaving.step SelectHead.here ihl

/-- The fully sequential schedule — each continuation runs to completion
    before the next starts — is one admitted interleaving. -/
theorem interleave_flatten (ls : List (List BuildOp)) :
    Interleaving ls ls.flatten := by
  induction ls with
  | nil => exact Interleaving.done (by simp)
  | cons l ls ih => exact interleave_cons_prefix ih

/-- C8: after a full build by the non-async `Compiler.buildSchema()` —
    its synchronous phase, which registers each table's bare type object
    in table-processing order, followed by ANY interleaving of the five
    unawaited per-table continuations — the type-key list starts with one
    table-type key per table in table-processing order, and every later
    key is `Query`, `Mutation`, or some table's `Page` key (each of which
    does appear), so all Page-type blocks follow all table-type blocks;
    each table's type object holds exactly the generated fields — mapped
    scalar columns in driver column-enumeration order, then the
    foreign-relation fields, then the reverse-relation fields last; and
    `getSDL` renders blocks in key-insertion order, type blocks before
    input blocks. -/
theorem claim_C8_block_field_order (m : ColumnTypeMapper) (db : DbSchema)
    (hTnodup : (typeKeysOf db).Nodup)
    (hQM : ∀ k ∈ typeKeysOf db, k ≠ str "Query" ∧ k ≠ str "Mutation")
    (hinner : ∀ p ∈ db, ((genTypeFields m p.2).map Prod.fst).Nodup)
    (ops : List BuildOp) (hops : Interleaving (allContOps m db) ops) :
    (∃ rest,
      OMap.keyList (applyOps (buildSchemaSyncPhase db emptySchema) ops).type =
        db.map (fun p => toCamelCase p.1) ++ rest ∧
      (∀ k ∈ rest, k = str "Query" ∨ k = str "Mutation" ∨
        ∃ p ∈ db, k = toCamelCase p.1 ++ str "Page") ∧
      (∀ p ∈ db, toCamelCase p.1 ++ str "Page" ∈ rest)) ∧
    (∀ p ∈ db,
      (applyOps (buildSchemaSyncPhase db emptySchema) ops).type.find?
        (toCamelCase p.1) = some (genTypeFields m p.2)) ∧
    (∀ s : Schema, getSDL s = jsTrim (joinWith (str "\n\n")
      (s.type.map renderTypeBlock ++ s.input.map renderInputBlock) ++
      str "\n")) := by
  have hsync : OMap.keyList (buildSchemaSyncPhase db emptySchema).type =
      db.map (fun p => toCamelCase p.1) := by
    have h := syncPhase_keyList db emptySchema (fun _ _ => rfl)
      (camels_nodup hTnodup)
    rw [h]
    rfl
  obtain ⟨rest, hrest, hrestp⟩ :=
    applyOps_keyList (buildSchemaSyncPhase db emptySchema) ops
  refine ⟨⟨rest, by rw [hrest, hsync], ?_, ?_⟩, ?_, fun s => rfl⟩
  · intro k hk
    obtain ⟨hknot, op, hopmem, hkey⟩ := hrestp k hk
    obtain ⟨l, hl, hopl⟩ := interleave_src hops op hopmem
    rcases allContOps_key hl hopl hkey with hQ | hM | ⟨p, hp, hc | hpg⟩
    · exact Or.inl hQ
    · exact Or.inr (Or.inl hM)
    · exfalso
      refine hknot ?_
      rw [hsync, hc]
      exact List.mem_map.mpr ⟨p, hp, rfl⟩
    · exact Or.inr (Or.inr ⟨p, hp, hpg⟩)
  · intro p hp
    have hopin : BuildOp.setPageKey (toCamelCase p.1 ++ str "Page")
        (pageFields (toCamelCase p.1)) ∈ ops := by
      refine interleave_sched hops _ (typeContOps_mem hp) _ ?_
      unfold typeContOps
      exact List.mem_append_right _ (List.mem_singleton.mpr rfl)
    have hmem := setPage_mem_applyOps (buildSchemaSyncPhase db emptySchema)
      ops _ _ hopin
    rw [hrest, hsync] at hmem
    rcases List.mem_append.mp hmem with hmc | hmr
    · obtain ⟨r, hr, he⟩ := List.mem_map.mp hmc
      exact absurd he.symm (page_ne_camel hTnodup p hp r hr)
    · exact hmr
  · intro p hp
    obtain ⟨d1, d2, hsplit⟩ := List.append_of_mem hp
    have hcnd := camels_nodup hTnodup
    rw [hsplit, List.map_append, List.map_cons] at hcnd
    obtain ⟨hnd1, hnd2, hdisj⟩ := List.nodup_append.mp hcnd
    obtain ⟨hnotin2, _⟩ := List.nodup_cons.mp hnd2
    have hne1 : ∀ q ∈ d1, toCamelCase q.1 ≠ toCamelCase p.1 := by
      intro q hq he
      refine hdisj (List.mem_map.mpr ⟨q, hq, rfl⟩) ?_
      rw [he]
      exact List.mem_cons_self _ _
    have hne2 : ∀ q ∈ d2, toCamelCase q.1 ≠ toCamelCase p.1 := by
      intro q hq he
      refine hnotin2 ?_
      rw [← he]
      exact List.mem_map.mpr ⟨q, hq, rfl⟩
    have hQne : str "Query" ≠ toCamelCase p.1 :=
      fun he => (hQM _ (camel_mem_typeKeysOf hp)).1 he.symm
    have hMne : str "Mutation" ≠ toCamelCase p.1 :=
      fun he => (hQM _ (camel_mem_typeKeysOf hp)).2 he.symm
    have hside : ∀ (d : DbSchema), (∀ q ∈ d, q ∈ db) →
        (∀ q ∈ d, toCamelCase q.1 ≠ toCamelCase p.1) →
        ∀ l ∈ (allContOps m d).map
          (List.filter (touchesType (toCamelCase p.1))), l = [] := by
      intro d hsub hne l hl
      obtain ⟨l0, hl0, rfl⟩ := List.mem_map.mp hl
      refine filter_touches_eq_nil ?_
      intro op hop
      cases hk : opTypeKey op with
      | none => simp [touchesType, hk]
      | some k' =>
        rcases allContOps_key hl0 hop hk with hQ | hM | ⟨q, hq, hc | hpg⟩
        · subst hQ
          simp [touchesType, hk, hQne]
        · subst hM
          simp [touchesType, hk, hMne]
        · subst hc
          simp [touchesType, hk, hne q hq]
        · subst hpg
          simp [touchesType, hk, page_ne_camel hTnodup q (hsub q hq) p hp]
    have hsub1 : ∀ q ∈ d1, q ∈ db := by
      intro q hq
      rw [hsplit]
      exact List.mem_append_left _ hq
    have hsub2 : ∀ q ∈ d2, q ∈ db := by
      intro q hq
      rw [hsplit]
      exact List.mem_append_right _ (List.mem_cons_of_mem p hq)
    have hmidQ : (queryContOps p.1).filter
        (touchesType (toCamelCase p.1)) = [] :=
      filter_touches_eq_nil (fun op hop => by
        simp [touchesType, queryContOps_key hop, hQne])
    have hmidF : (firstOfContOps p.1).filter
        (touchesType (toCamelCase p.1)) = [] :=
      filter_touches_eq_nil (fun op hop => by
        simp [touchesType, firstOfContOps_key hop, hQne])
    have hmidM : (mutationContOps p.1).filter
        (touchesType (toCamelCase p.1)) = [] :=
      filter_touches_eq_nil (fun op hop => by
        simp [touchesType, mutationContOps_key hop, hMne])
    have hmidI : (inputContOps m p.1 p.2).filter
        (touchesType (toCamelCase p.1)) = [] :=
      filter_touches_eq_nil (fun op hop => by
        simp [touchesType, inputContOps_key hop])
    have hfil := @interleave_filter (touchesType (toCamelCase p.1)) _ _ hops
    rw [hsplit, allContOps_append] at hfil
    simp only [allContOps, tableContOps, List.map_append, List.map_cons,
      List.cons_append, List.nil_append] at hfil
    have hb : ∀ l ∈ (queryContOps p.1).filter (touchesType (toCamelCase p.1)) ::
        (firstOfContOps p.1).filter (touchesType (toCamelCase p.1)) ::
        (mutationContOps p.1).filter (touchesType (toCamelCase p.1)) ::
        (inputContOps m p.1 p.2).filter (touchesType (toCamelCase p.1)) ::
        (allContOps m d2).map (List.filter (touchesType (toCamelCase p.1))),
        l = [] := by
      intro l hl
      rcases List.mem_cons.mp hl with he | hl
      · rw [he, hmidQ]
      rcases List.mem_cons.mp hl with he | hl
      · rw [he, hmidF]
      rcases List.mem_cons.mp hl with he | hl
      · rw [he, hmidM]
      rcases List.mem_cons.mp hl with he | hl
      · rw [he, hmidI]
      · exact hside d2 hsub2 hne2 l hl
    have hopseq := interleave_of_nils hfil (hside d1 hsub1 hne1) hb
    rw [applyOps_find_type, typeProjFold_filter, hopseq, typeContOps_filter_self,
      syncPhase_find_camel db emptySchema p hp rfl, typeProjFold_setOps,
      innerFold_id _ (hinner p hp)]

/-- The C8 theorem applied to the spec's foo/bar example under the fully
    sequential schedule of the pending continuations. -/
theorem claim_C8_block_field_order_witness :
    (typeKeysOf fooBarDb).Nodup ∧
    (∃ rest,
      OMap.keyList (applyOps (buildSchemaSyncPhase fooBarDb emptySchema)
        ((allContOps demoMapper fooBarDb).flatten)).type =
        fooBarDb.map (fun p => toCamelCase p.1) ++ rest ∧
      (∀ p ∈ fooBarDb, toCamelCase p.1 ++ str "Page" ∈ rest)) := by
  refine ⟨by decide, ?_⟩
  obtain ⟨⟨rest, h1, _, h3⟩, _, _⟩ := claim_C8_block_field_order demoMapper
    fooBarDb (by decide) (by decide) (by decide)
    ((allContOps demoMapper fooBarDb).flatten)
    (interleave_flatten _)
  exact ⟨rest, h1, h3⟩

end Sql2GraphQL
